import Mathlib

set_option autoImplicit false

/-!
Shallow embedding of the talent-tree allocation model and beam-search
optimizer of the wow-talent-optimizer repository.

Sources embedded here:
  * `src/talents/models.py` (data model),
  * `src/optimizer/talents/player_choice/__init__.py`
    (`PlayerTalentNodeSelection`, `PlayerTalentTree`),
  * `src/optimizer/algorithms/beam_search/__init__.py`
    (`BeamSearchOptimizer.beam_search_optimal_talents`).

Conventions of the embedding:
  * Python `dict` objects are association lists with insertion-order
    semantics (`dictInsert` overwrites the value at an existing key in
    place, otherwise appends at the end).
  * `defaultdict(int)` (`_spent_points_by_gate`) is an association list
    with `Int` values; absent keys read as `0`.
  * Python exceptions are modelled with `Option`: `none` means an
    exception that propagates out of the modelled function (ValueError /
    KeyError), while the caught `DecrementNotPossible` exception is the
    value `some false` of `can_node_be_decremented`.
  * `random.shuffle` is a parameter: the functions that shuffle are
    passed in explicitly; theorems quantify over them (with permutation
    hypotheses where the claim needs them).
  * The simulation oracle is a parameter `String → Option ℚ`: `none`
    models a failed simulation run, `some d` a run reporting dps `d`.
-/

/-! ## Data model (`src/talents/models.py`) -/

/-- `ChoiceNodeTalent` from `src/talents/models.py`. -/
structure ChoiceNodeTalent where
  talent_name : String
  max_points : Nat
deriving DecidableEq, Repr

/-- `TalentTreeNode` from `src/talents/models.py`.  The Python class holds
direct references to parent and child node objects; every use in the
embedded code goes through `node_id` lookups, so the embedding stores the
node ids of the parents and children. -/
structure TalentTreeNode where
  node_id : String
  choices : List ChoiceNodeTalent
  gate_id : Nat
  parent_node_ids : List String
  child_node_ids : List String
  sort_key : String
deriving DecidableEq, Repr

/-- `Gate` from `src/talents/models.py`. -/
structure Gate where
  gate_id : Nat
  points_required_below : Nat
deriving DecidableEq, Repr

/-- `GateInfo` from `src/talents/models.py`. -/
structure GateInfo where
  gates : List Gate
deriving DecidableEq, Repr

/-- `TalentTree` from `src/talents/models.py`. -/
structure TalentTree where
  gate_info : GateInfo
  nodes : List TalentTreeNode
deriving DecidableEq, Repr

/-! ## Python dict semantics -/

/-- Insertion into a Python dict: overwrite in place if the key exists,
otherwise append. -/
def dictInsert {α : Type} (k : String) (v : α) : List (String × α) → List (String × α)
  | [] => [(k, v)]
  | kv :: rest => if kv.1 = k then (k, v) :: rest else kv :: dictInsert k v rest

/-- Lookup in a Python dict (first match; keys are unique for dicts built
with `dictInsert`). -/
def dictGet {α : Type} (d : List (String × α)) (k : String) : Option α :=
  match d with
  | [] => none
  | kv :: rest => if kv.1 = k then some kv.2 else dictGet rest k

/-- Code-point lexicographic comparison on strings (`<`), written over
`String.data` so that it reduces in the kernel; it agrees with Python's
string comparison used by `sorted(key=...)`. -/
def strLtB : List Char → List Char → Bool
  | [], [] => false
  | [], _ :: _ => true
  | _ :: _, [] => false
  | c :: cs, d :: ds =>
    if c.val < d.val then true else if d.val < c.val then false else strLtB cs ds

/-- Lookup in the `defaultdict(int)` used for `_spent_points_by_gate`. -/
def gateGet (d : List (Nat × Int)) (g : Nat) : Int :=
  match d with
  | [] => 0
  | kv :: rest => if kv.1 = g then kv.2 else gateGet rest g

/-- `d[g] += x` on the `defaultdict(int)` used for `_spent_points_by_gate`. -/
def gateAdd (d : List (Nat × Int)) (g : Nat) (x : Int) : List (Nat × Int) :=
  match d with
  | [] => [(g, x)]
  | kv :: rest => if kv.1 = g then (g, kv.2 + x) :: rest else kv :: gateAdd rest g x

/-! ## `PlayerTalentNodeSelection` -/

/-- `PlayerTalentNodeSelection` from
`src/optimizer/talents/player_choice/__init__.py`. -/
structure PlayerTalentNodeSelection where
  node_reference : TalentTreeNode
  points_spent_by_choice_index : List Nat
deriving DecidableEq, Repr

namespace PlayerTalentNodeSelection

/-- `PlayerTalentNodeSelection.has_fully_skilled_choice`. -/
def has_fully_skilled_choice (s : PlayerTalentNodeSelection) : Bool :=
  (s.node_reference.choices.zip s.points_spent_by_choice_index).any
    (fun cp => cp.1.max_points = cp.2)

/-- `PlayerTalentNodeSelection.holds_talent_points`. -/
def holds_talent_points (s : PlayerTalentNodeSelection) : Bool :=
  s.points_spent_by_choice_index.any (fun p => p ≠ 0)

/-- Helper for `get_choice_indices_with_points`: indices (starting at `i`)
of the entries that hold points. -/
def indicesWithPoints : Nat → List Nat → List Nat
  | _, [] => []
  | i, p :: ps =>
    if p > 0 then i :: indicesWithPoints (i + 1) ps else indicesWithPoints (i + 1) ps

/-- `PlayerTalentNodeSelection.get_choice_indices_with_points`. -/
def get_choice_indices_with_points (s : PlayerTalentNodeSelection) : List Nat :=
  indicesWithPoints 0 s.points_spent_by_choice_index

/-- `PlayerTalentNodeSelection.to_talent_string`. -/
def to_talent_string (s : PlayerTalentNodeSelection) : String :=
  String.intercalate "/"
    ((s.node_reference.choices.zip s.points_spent_by_choice_index).filterMap
      (fun cp =>
        if cp.2 > 0 then some (cp.1.talent_name ++ ":" ++ toString cp.2) else none))

/-- `PlayerTalentNodeSelection.violates_single_choice_rule`. -/
def violates_single_choice_rule (s : PlayerTalentNodeSelection) : Bool :=
  (s.points_spent_by_choice_index.filter (fun p => p > 0)).length > 1

/-- `PlayerTalentNodeSelection.remove_point_from_choice`.  `none` models the
`ValueError` raised for an out-of-range index or an empty choice. -/
def remove_point_from_choice (s : PlayerTalentNodeSelection) (choice_index : Nat) :
    Option PlayerTalentNodeSelection :=
  if choice_index ≥ s.node_reference.choices.length then none
  else
    match s.points_spent_by_choice_index.get? choice_index with
    | none => none
    | some p =>
      if p ≤ 0 then none
      else
        some { s with
          points_spent_by_choice_index :=
            s.points_spent_by_choice_index.set choice_index (p - 1) }

end PlayerTalentNodeSelection

/-! ## `PlayerTalentTree` -/

/-- `PlayerTalentTree` from
`src/optimizer/talents/player_choice/__init__.py`.  The derived dict
`_template_node_by_id` is recomputed from the (immutable) template on
demand rather than stored. -/
structure PlayerTalentTree where
  tree_template : TalentTree
  max_points_available : Nat
  selection_by_node_id : List (String × PlayerTalentNodeSelection)
  spent_points_by_gate : List (Nat × Int)
deriving DecidableEq, Repr

/-- `self._template_node_by_id = {node.node_id: node for node in tree_template.nodes}`. -/
def templateDict (tmpl : TalentTree) : List (String × TalentTreeNode) :=
  tmpl.nodes.foldl (fun d n => dictInsert n.node_id n d) []

/-- `PlayerTalentTree._get_empty_selections_dict`. -/
def emptySelectionsDict (tmpl : TalentTree) : List (String × PlayerTalentNodeSelection) :=
  tmpl.nodes.foldl
    (fun d n =>
      dictInsert n.node_id
        { node_reference := n
          points_spent_by_choice_index := n.choices.map (fun _ => 0) } d)
    []

namespace PlayerTalentTree

/-- `PlayerTalentTree.__init__`. -/
def init (tmpl : TalentTree) (max_points_available : Nat) : PlayerTalentTree :=
  { tree_template := tmpl
    max_points_available := max_points_available
    selection_by_node_id := emptySelectionsDict tmpl
    spent_points_by_gate := [] }

/-- `PlayerTalentTree.copy`. -/
def copy (t : PlayerTalentTree) : PlayerTalentTree :=
  let base := init t.tree_template t.max_points_available
  { base with
    selection_by_node_id :=
      t.selection_by_node_id.foldl
        (fun d kv =>
          dictInsert kv.1
            { node_reference := kv.2.node_reference
              points_spent_by_choice_index := kv.2.points_spent_by_choice_index } d)
        base.selection_by_node_id
    spent_points_by_gate := t.spent_points_by_gate }

/-- One node body of `PlayerTalentTree.skill_all_nodes`: walks the choices
of one selection (index `i` onward), setting each non-blocked choice to its
maximum and returning the new points vector together with the total number
of points added to the node's gate. -/
def skillChoices (nid : String) (except_for : List (String × Nat)) :
    Nat → List ChoiceNodeTalent → List Nat → List Nat × Nat
  | _, _, [] => ([], 0)
  | _, [], ps => (ps, 0)
  | i, c :: cs, p :: ps =>
    let rest := skillChoices nid except_for (i + 1) cs ps
    if (nid, i) ∈ except_for then (p :: rest.1, rest.2)
    else (c.max_points :: rest.1, rest.2 + c.max_points)

/-- `PlayerTalentTree.skill_all_nodes`. -/
def skill_all_nodes (t : PlayerTalentTree) (except_for : List (String × Nat)) :
    PlayerTalentTree :=
  t.selection_by_node_id.foldl
    (fun acc kv =>
      let res := skillChoices kv.1 except_for 0 kv.2.node_reference.choices
        kv.2.points_spent_by_choice_index
      { acc with
        selection_by_node_id :=
          dictInsert kv.1 { kv.2 with points_spent_by_choice_index := res.1 }
            acc.selection_by_node_id
        spent_points_by_gate :=
          gateAdd acc.spent_points_by_gate kv.2.node_reference.gate_id res.2 })
    t

/-- Sort key used by `PlayerTalentTree.to_talent_string`
(`self._template_node_by_id[n.node_reference.node_id].sort_key`; the lookup
always succeeds in the program, the fallback is never taken there). -/
def sortKeyOf (t : PlayerTalentTree) (s : PlayerTalentNodeSelection) : String :=
  match dictGet (templateDict t.tree_template) s.node_reference.node_id with
  | some n => n.sort_key
  | none => s.node_reference.sort_key

/-- `PlayerTalentTree.to_talent_string`. -/
def to_talent_string (t : PlayerTalentTree) : String :=
  String.intercalate "/"
    (((t.selection_by_node_id.map Prod.snd).insertionSort
        (fun a b => strLtB (sortKeyOf t b).data (sortKeyOf t a).data = false)).filterMap
      (fun s =>
        let str := s.to_talent_string
        if str = "" then none else some str))

/-- `PlayerTalentTree.get_total_points_spent`. -/
def get_total_points_spent (t : PlayerTalentTree) : Nat :=
  (t.selection_by_node_id.map
    (fun kv => kv.2.points_spent_by_choice_index.sum)).sum

/-- `PlayerTalentTree.get_total_points_available`. -/
def get_total_points_available (t : PlayerTalentTree) : Nat :=
  t.max_points_available

/-- `PlayerTalentTree.get_node_ids_with_violated_single_choice`. -/
def get_node_ids_with_violated_single_choice (t : PlayerTalentTree) : List String :=
  (t.selection_by_node_id.filter
    (fun kv => kv.2.violates_single_choice_rule)).map Prod.fst

/-- Inner parent loop of `can_node_be_decremented`: does some parent of the
child, other than `node_id`, have a fully skilled choice?  `none` models the
`KeyError` raised when a parent id has no selection. -/
def hasOtherValidParent (t : PlayerTalentTree) (node_id : String) :
    List String → Option Bool
  | [] => some false
  | p :: rest =>
    if p = node_id then hasOtherValidParent t node_id rest
    else
      match dictGet t.selection_by_node_id p with
      | none => none
      | some parent_selection =>
        if parent_selection.has_fully_skilled_choice then some true
        else hasOtherValidParent t node_id rest

/-- Child loop of `can_node_be_decremented` (dependency preservation):
`some true` means no child blocks the removal, `some false` models the
`DecrementNotPossible` raised for a stranded child, `none` a `KeyError`. -/
def dependencyCheck (t : PlayerTalentTree) (node_id : String)
    (is_single_choice_rule_violated : Bool) : List String → Option Bool
  | [] => some true
  | c :: rest =>
    match dictGet t.selection_by_node_id c with
    | none => none
    | some child_node_selection =>
      if child_node_selection.holds_talent_points then
        match hasOtherValidParent t node_id
            child_node_selection.node_reference.parent_node_ids with
        | none => none
        | some has_valid_parent =>
          if has_valid_parent || is_single_choice_rule_violated then
            dependencyCheck t node_id is_single_choice_rule_violated rest
          else some false
      else dependencyCheck t node_id is_single_choice_rule_violated rest

/-- Gate loop of `can_node_be_decremented`: scans the gates in ascending
`gate_id` order, accumulating the spent points of the gates already passed;
returns `false` (modelling `DecrementNotPossible`) as soon as a gate above
the node's gate has `points_required_below ≥ running_total_spent`. -/
def gateLoop (node_gate_id : Nat) (spent : List (Nat × Int)) :
    List Gate → Int → Bool
  | [], _ => true
  | g :: rest, running_total_spent =>
    if g.gate_id > node_gate_id ∧ (g.points_required_below : Int) ≥ running_total_spent
    then false
    else gateLoop node_gate_id spent rest (running_total_spent + gateGet spent g.gate_id)

/-- `sorted(self._tree_template.gate_info.gates, key=lambda g: g.gate_id)`. -/
def sortedGates (t : PlayerTalentTree) : List Gate :=
  t.tree_template.gate_info.gates.insertionSort (fun a b => a.gate_id ≤ b.gate_id)

/-- `PlayerTalentTree.can_node_be_decremented`.  `some b` is the boolean
result; `none` models an exception other than the internally caught
`DecrementNotPossible` (the `ValueError` for an unknown node id, or a
`KeyError` from a dangling parent/child reference). -/
def can_node_be_decremented (t : PlayerTalentTree) (node_id : String)
    (choice_index : Nat) : Option Bool :=
  match dictGet t.selection_by_node_id node_id with
  | none => none
  | some node_selection =>
    if ¬ node_selection.holds_talent_points then some false
    else if choice_index ∉ node_selection.get_choice_indices_with_points then some false
    else
      let is_single_choice_rule_violated := node_selection.violates_single_choice_rule
      match dictGet (templateDict t.tree_template) node_id with
      | none => none
      | some template_node =>
        match dependencyCheck t node_id is_single_choice_rule_violated
            template_node.child_node_ids with
        | none => none
        | some false => some false
        | some true =>
          if gateLoop node_selection.node_reference.gate_id t.spent_points_by_gate
              (sortedGates t) 0
          then some true else some false

/-- `PlayerTalentTree.decrement_node`.  `none` models the uncaught
`KeyError`/`ValueError` raised for an unknown node id, an out-of-range
choice index, or a choice with no points. -/
def decrement_node (t : PlayerTalentTree) (node_id : String) (choice_index : Nat) :
    Option PlayerTalentTree :=
  match dictGet t.selection_by_node_id node_id with
  | none => none
  | some node_selection =>
    match node_selection.remove_point_from_choice choice_index with
    | none => none
    | some node_selection2 =>
      some { t with
        selection_by_node_id :=
          dictInsert node_id node_selection2 t.selection_by_node_id
        spent_points_by_gate :=
          gateAdd t.spent_points_by_gate node_selection.node_reference.gate_id (-1) }

/-- Inner choice loop of `find_nodes_to_decrement` for one node id. -/
def collectChoices (t : PlayerTalentTree) (node_id : String) :
    List Nat → Option (List (String × Nat))
  | [] => some []
  | ci :: rest =>
    match t.can_node_be_decremented node_id ci with
    | none => none
    | some b =>
      match collectChoices t node_id rest with
      | none => none
      | some tail => some (if b then (node_id, ci) :: tail else tail)

/-- Outer node loop of `find_nodes_to_decrement`. -/
def collectNodes (t : PlayerTalentTree)
    (shuffleChoices : String → List Nat → List Nat) :
    List String → Option (List (String × Nat))
  | [] => some []
  | nid :: rest =>
    match dictGet t.selection_by_node_id nid with
    | none => none
    | some node_selection =>
      match collectChoices t nid
          (shuffleChoices nid node_selection.get_choice_indices_with_points) with
      | none => none
      | some here =>
        match collectNodes t shuffleChoices rest with
        | none => none
        | some tail => some (here ++ tail)

/-- `PlayerTalentTree.find_nodes_to_decrement`.  The two `random.shuffle`
calls are passed in as explicit functions; `none` models an exception
escaping from `can_node_be_decremented`. -/
def find_nodes_to_decrement (t : PlayerTalentTree)
    (shuffleNodeIds : List String → List String)
    (shuffleChoices : String → List Nat → List Nat) :
    Option (List (String × Nat)) :=
  let violating_node_ids := t.get_node_ids_with_violated_single_choice
  let candidate_node_ids := shuffleNodeIds (t.selection_by_node_id.map Prod.fst)
  let candidate_node_ids2 := violating_node_ids ++
    candidate_node_ids.filter (fun nid => nid ∉ violating_node_ids)
  collectNodes t shuffleChoices candidate_node_ids2

end PlayerTalentTree

open PlayerTalentTree

/-! ## Beam search (`src/optimizer/algorithms/beam_search/__init__.py`)

The sim runner is abstracted as an oracle `String → Option ℚ` from the
spec-tree talent string (the only varying part of the `SimInput`) to the
reported dps; `none` models a failed simulation.  The `random.shuffle`
calls are again explicit parameters.  The while loop is given a fuel
parameter; running out of fuel is a distinguished outcome, so termination
bounds are statements that the fuel-out outcome is not reached. -/

/-- `BeamSearchConfig`. -/
structure BeamSearchConfig where
  beam_width : Nat
  max_explorations_per_candidate : Nat
deriving DecidableEq, Repr

/-- The three `random.shuffle` call sites, as explicit functions. -/
structure BeamShuffles where
  shuffleNodeIds : List String → List String
  shuffleChoices : String → List Nat → List Nat
  shuffleDecrements : List (String × Nat) → List (String × Nat)

/-- The mutable state of `beam_search_optimal_talents` between loop
iterations, plus the log of strings submitted to the sim runner. -/
structure SearchState where
  dps_by_talent_str : List (String × ℚ)
  beam : List PlayerTalentTree
  best_dps : ℚ
  best_tree_so_far : Option PlayerTalentTree
  oracle_calls : List String
deriving DecidableEq

/-- Python exceptions that can escape the search loop body. -/
inductive SearchError
  /-- `KeyError` from `dps_by_talent_str[tree.to_talent_string()]`. -/
  | memoKeyMissing
  /-- `KeyError`/`ValueError` from `find_nodes_to_decrement` or
  `decrement_node`. -/
  | treeOpFailed
deriving DecidableEq, Repr

/-- Accumulator for one iteration of the while loop. -/
structure IterAcc where
  memo : List (String × ℚ)
  candidates : List (PlayerTalentTree × ℚ)
  best_dps : ℚ
  best_tree : Option PlayerTalentTree
  has_new_candidates : Bool
  calls : List String
deriving DecidableEq

/-- Result of processing (part of) one beam: on error the accumulator at
the moment the exception was raised is kept. -/
inductive IterOutcome
  | ok (acc : IterAcc)
  | err (e : SearchError) (acc : IterAcc)
deriving DecidableEq

/-- The `for node_id, choice_index in decrementable_nodes[:...]` loop for
one over-budget tree. -/
def expandPairs (oracle : String → Option ℚ) (tree : PlayerTalentTree) :
    List (String × Nat) → IterAcc → IterOutcome
  | [], acc => .ok acc
  | (nid, ci) :: rest, acc =>
    match (tree.copy).decrement_node nid ci with
    | none => .err .treeOpFailed acc
    | some new_tree =>
      let spec_talent_str := new_tree.to_talent_string
      if (dictGet acc.memo spec_talent_str).isSome then
        expandPairs oracle tree rest acc
      else
        let acc1 := { acc with calls := acc.calls ++ [spec_talent_str] }
        match oracle spec_talent_str with
        | none => expandPairs oracle tree rest acc1
        | some d =>
          let is_new_best := d > acc1.best_dps ∧
            new_tree.get_total_points_spent ≤ new_tree.get_total_points_available
          expandPairs oracle tree rest
            { memo := dictInsert spec_talent_str d acc1.memo
              candidates := acc1.candidates ++ [(new_tree, d)]
              best_dps := if is_new_best then d else acc1.best_dps
              best_tree := if is_new_best then some new_tree else acc1.best_tree
              has_new_candidates := true
              calls := acc1.calls }

/-- Body of `for tree in beam` for a single tree. -/
def processTree (cfg : BeamSearchConfig) (oracle : String → Option ℚ)
    (sh : BeamShuffles) (acc : IterAcc) (tree : PlayerTalentTree) : IterOutcome :=
  if tree.get_total_points_spent ≤ tree.get_total_points_available then
    match dictGet acc.memo tree.to_talent_string with
    | none => .err .memoKeyMissing acc
    | some tree_dps =>
      .ok { acc with
        candidates := acc.candidates ++ [(tree, tree_dps)]
        best_dps := if tree_dps > acc.best_dps then tree_dps else acc.best_dps
        best_tree := if tree_dps > acc.best_dps then some tree else acc.best_tree }
  else
    match tree.find_nodes_to_decrement sh.shuffleNodeIds sh.shuffleChoices with
    | none => .err .treeOpFailed acc
    | some decrementable_nodes =>
      expandPairs oracle tree
        ((sh.shuffleDecrements decrementable_nodes).take
          cfg.max_explorations_per_candidate) acc

/-- The `for tree in beam` loop. -/
def processBeam (cfg : BeamSearchConfig) (oracle : String → Option ℚ)
    (sh : BeamShuffles) : List PlayerTalentTree → IterAcc → IterOutcome
  | [], acc => .ok acc
  | tree :: rest, acc =>
    match processTree cfg oracle sh acc tree with
    | .err e acc2 => .err e acc2
    | .ok acc2 => processBeam cfg oracle sh rest acc2

/-- Result of one iteration of the while loop. -/
inductive StepResult
  /-- the iteration executed a `break` -/
  | stop (st : SearchState)
  /-- the iteration finished and the loop continues -/
  | next (st : SearchState)
  /-- an exception escaped the iteration -/
  | err (e : SearchError) (st : SearchState)
deriving DecidableEq

/-- One iteration of the `while beam:` body. -/
def beamStep (cfg : BeamSearchConfig) (oracle : String → Option ℚ)
    (sh : BeamShuffles) (st : SearchState) : StepResult :=
  match processBeam cfg oracle sh st.beam
      ⟨st.dps_by_talent_str, [], st.best_dps, st.best_tree_so_far, false,
        st.oracle_calls⟩ with
  | .err e acc =>
    .err e ⟨acc.memo, st.beam, acc.best_dps, acc.best_tree, acc.calls⟩
  | .ok acc =>
    if acc.has_new_candidates = false then
      .stop ⟨acc.memo, st.beam, acc.best_dps, acc.best_tree, acc.calls⟩
    else
      let sorted := acc.candidates.insertionSort (fun a b => b.2 ≤ a.2)
      let newBeam := (sorted.take cfg.beam_width).map Prod.fst
      if newBeam.isEmpty then
        .stop ⟨acc.memo, newBeam, acc.best_dps, acc.best_tree, acc.calls⟩
      else .next ⟨acc.memo, newBeam, acc.best_dps, acc.best_tree, acc.calls⟩

/-- Overall outcome of `beam_search_optimal_talents`. -/
inductive SearchOutcome
  /-- `RuntimeError("Initial sim failed")` -/
  | fatal (calls : List String)
  /-- an exception escaped the while loop -/
  | failed (e : SearchError) (st : SearchState)
  /-- the fuel bound was reached before the loop ended -/
  | fuelOut (st : SearchState)
  /-- the loop ended by `break` or by `while beam:` turning false -/
  | finished (st : SearchState)
deriving DecidableEq

/-- The `while beam:` loop with fuel. -/
def beamLoop (cfg : BeamSearchConfig) (oracle : String → Option ℚ)
    (sh : BeamShuffles) : Nat → SearchState → SearchOutcome
  | 0, st => .fuelOut st
  | fuel + 1, st =>
    if st.beam.isEmpty then .finished st
    else
      match beamStep cfg oracle sh st with
      | .stop st2 => .finished st2
      | .err e st2 => .failed e st2
      | .next st2 => beamLoop cfg oracle sh fuel st2

/-- The seed allocation: a fresh `PlayerTalentTree` with
`skill_all_nodes` applied to the block list. -/
def seedTree (tmpl : TalentTree) (max_points : Nat)
    (blocked : List (String × Nat)) : PlayerTalentTree :=
  (PlayerTalentTree.init tmpl max_points).skill_all_nodes blocked

/-- The search state at the top of the first loop iteration, given the dps
`d0` reported for the seed. -/
def initialState (tmpl : TalentTree) (max_points : Nat)
    (blocked : List (String × Nat)) (d0 : ℚ) : SearchState :=
  let spec_tree := seedTree tmpl max_points blocked
  { dps_by_talent_str := [(spec_tree.to_talent_string, d0)]
    beam := [spec_tree]
    best_dps := 0
    best_tree_so_far := none
    oracle_calls := [spec_tree.to_talent_string] }

/-- `BeamSearchOptimizer.beam_search_optimal_talents` (the search itself;
the final packaging into `BeamSearchOptimizationResult` only re-exposes
`best_dps` and `best_tree_so_far`). -/
def beam_search_optimal_talents (cfg : BeamSearchConfig)
    (oracle : String → Option ℚ) (sh : BeamShuffles) (fuel : Nat)
    (tmpl : TalentTree) (max_points : Nat) (blocked : List (String × Nat)) :
    SearchOutcome :=
  let spec_tree := seedTree tmpl max_points blocked
  match oracle spec_tree.to_talent_string with
  | none => .fatal [spec_tree.to_talent_string]
  | some d0 => beamLoop cfg oracle sh fuel (initialState tmpl max_points blocked d0)

/-! ## Derived observables and invariants -/

/-- The points currently spent in choice `c` of node `n` (`none` when the
node id is unknown or the index is past the end of the points vector). -/
def pointsAt (t : PlayerTalentTree) (n : String) (c : Nat) : Option Nat :=
  match dictGet t.selection_by_node_id n with
  | none => none
  | some s => s.points_spent_by_choice_index.get? c

/-- Sum of the points spent across the choices of the selections whose node
has gate id `g`. -/
def sumPointsInGate (g : Nat) :
    List (String × PlayerTalentNodeSelection) → Nat
  | [] => 0
  | kv :: rest =>
    (if kv.2.node_reference.gate_id = g then kv.2.points_spent_by_choice_index.sum
      else 0) + sumPointsInGate g rest

/-- Sum of the points spent across the choices of the selections whose node
has gate id strictly below `h`. -/
def sumPointsBelow (h : Nat) :
    List (String × PlayerTalentNodeSelection) → Nat
  | [] => 0
  | kv :: rest =>
    (if kv.2.node_reference.gate_id < h then kv.2.points_spent_by_choice_index.sum
      else 0) + sumPointsBelow h rest

/-- The per-gate bookkeeping invariant: the stored cumulative total of every
gate id equals the sum of points spent across the choices of the nodes with
that gate id. -/
def gateInv (t : PlayerTalentTree) : Prop :=
  ∀ g : Nat,
    gateGet t.spent_points_by_gate g = (sumPointsInGate g t.selection_by_node_id : Int)

/-! ## Well-formedness predicates and concrete fixtures -/

/-- Well-formedness of a template: every parent/child reference resolves. -/
def TalentTree.wf (tmpl : TalentTree) : Prop :=
  ∀ n ∈ tmpl.nodes,
    (∀ c ∈ n.child_node_ids, (dictGet (templateDict tmpl) c).isSome) ∧
    (∀ p ∈ n.parent_node_ids, (dictGet (templateDict tmpl) p).isSome)

/-- Well-formedness of an allocation (see section header). -/
def PlayerTalentTree.wf (t : PlayerTalentTree) : Prop :=
  t.tree_template.wf ∧
  t.selection_by_node_id.map Prod.fst = (templateDict t.tree_template).map Prod.fst ∧
  ∀ kv ∈ t.selection_by_node_id,
    dictGet (templateDict t.tree_template) kv.1 = some kv.2.node_reference ∧
    kv.2.points_spent_by_choice_index.length = kv.2.node_reference.choices.length

instance (tmpl : TalentTree) : Decidable tmpl.wf := by
  unfold TalentTree.wf
  infer_instance

instance (t : PlayerTalentTree) : Decidable t.wf := by
  unfold PlayerTalentTree.wf
  infer_instance

/-- Fixture for the C4 witness: one node `a` with a single 2-point choice. -/
def w4tmpl : TalentTree :=
  { gate_info := { gates := [{ gate_id := 0, points_required_below := 0 }] }
    nodes := [{ node_id := "a"
                choices := [{ talent_name := "alpha", max_points := 2 }]
                gate_id := 0
                parent_node_ids := []
                child_node_ids := []
                sort_key := "1" }] }

/-- The fully skilled allocation over `w4tmpl`. -/
def w4tree : PlayerTalentTree := (PlayerTalentTree.init w4tmpl 5).skill_all_nodes []

/-- The selection of node `a` in `w4tree`. -/
def w4sel : PlayerTalentNodeSelection :=
  { node_reference := { node_id := "a"
                        choices := [{ talent_name := "alpha", max_points := 2 }]
                        gate_id := 0
                        parent_node_ids := []
                        child_node_ids := []
                        sort_key := "1" }
    points_spent_by_choice_index := [2] }

/-- Fixture for the C2 witness: a two-node chain `a → b`, one 1-point
choice each. -/
def w2tmpl : TalentTree :=
  { gate_info := { gates := [{ gate_id := 0, points_required_below := 0 }] }
    nodes := [
      { node_id := "a"
        choices := [{ talent_name := "alpha", max_points := 1 }]
        gate_id := 0
        parent_node_ids := []
        child_node_ids := ["b"]
        sort_key := "1" },
      { node_id := "b"
        choices := [{ talent_name := "beta", max_points := 1 }]
        gate_id := 0
        parent_node_ids := ["a"]
        child_node_ids := []
        sort_key := "2" }] }

/-- The fully skilled allocation over `w2tmpl`. -/
def w2tree : PlayerTalentTree := (PlayerTalentTree.init w2tmpl 2).skill_all_nodes []

/-- The selection of node `a` in `w2tree`. -/
def w2selA : PlayerTalentNodeSelection :=
  { node_reference :=
      { node_id := "a"
        choices := [{ talent_name := "alpha", max_points := 1 }]
        gate_id := 0
        parent_node_ids := []
        child_node_ids := ["b"]
        sort_key := "1" }
    points_spent_by_choice_index := [1] }

/-- The allocation reached from `w4tree` by removing one point from the
single choice of node `a` (used for C3): one point left, gate total 1. -/
def w3t : PlayerTalentTree :=
  { tree_template := w4tmpl
    max_points_available := 5
    selection_by_node_id :=
      [("a", { node_reference := { node_id := "a"
                                   choices := [{ talent_name := "alpha", max_points := 2 }]
                                   gate_id := 0
                                   parent_node_ids := []
                                   child_node_ids := []
                                   sort_key := "1" }
               points_spent_by_choice_index := [1] })]
    spent_points_by_gate := [(0, 1)] }

/-- The pairs contributed by node `nid` to the result of
`find_nodes_to_decrement` (its inner choice loop, given the shuffled choice
list). -/
def foundPairs (t : PlayerTalentTree)
    (shuffleChoices : String → List Nat → List Nat) (nid : String) :
    List (String × Nat) :=
  match dictGet t.selection_by_node_id nid with
  | none => []
  | some sel =>
    (shuffleChoices nid sel.get_choice_indices_with_points).filterMap
      (fun ci =>
        if t.can_node_be_decremented nid ci = some true then some (nid, ci)
        else none)

/-- The memo-table safety invariant of the search loop: every beam member's
canonical talent string is a key of `dps_by_talent_str`. -/
def memoInv (st : SearchState) : Prop :=
  ∀ tree ∈ st.beam, (dictGet st.dps_by_talent_str tree.to_talent_string).isSome

/-- The oracle-call log of a search outcome. -/
def callsOf : SearchOutcome → List String
  | .fatal calls => calls
  | .failed _ st => st.oracle_calls
  | .fuelOut st => st.oracle_calls
  | .finished st => st.oracle_calls

/-- Call-log invariant: every string the oracle can score appears at most
once in the log, and once it has appeared it is memoized. -/
def callsInv (oracle : String → Option ℚ) (memo : List (String × ℚ))
    (calls : List String) : Prop :=
  ∀ s q, oracle s = some q →
    calls.count s ≤ 1 ∧ (0 < calls.count s → (dictGet memo s).isSome)

/-- Bound invariant for the termination argument: the selection dict is
keyed by the template, the budget is `B`, and at most `B + k` points are
spent. -/
def beamTreeInv (B k : Nat) (tree : PlayerTalentTree) : Prop :=
  tree.selection_by_node_id.map Prod.fst =
    (templateDict tree.tree_template).map Prod.fst ∧
  tree.max_points_available = B ∧
  tree.get_total_points_spent ≤ B + k

/-- Identity shuffles (one admissible behaviour of `random.shuffle`). -/
def idShuffles : BeamShuffles :=
  { shuffleNodeIds := fun l => l
    shuffleChoices := fun _ l => l
    shuffleDecrements := fun l => l }

/-- Fixture for C7: three independent one-point nodes `a`, `b`, `c`. -/
def w7tmpl : TalentTree :=
  { gate_info := { gates := [{ gate_id := 0, points_required_below := 0 }] }
    nodes := [
      { node_id := "a"
        choices := [{ talent_name := "a", max_points := 1 }]
        gate_id := 0
        parent_node_ids := []
        child_node_ids := []
        sort_key := "1" },
      { node_id := "b"
        choices := [{ talent_name := "b", max_points := 1 }]
        gate_id := 0
        parent_node_ids := []
        child_node_ids := []
        sort_key := "2" },
      { node_id := "c"
        choices := [{ talent_name := "c", max_points := 1 }]
        gate_id := 0
        parent_node_ids := []
        child_node_ids := []
        sort_key := "3" }] }

/-- Oracle for the C7 run: fails exactly on the string `c:1`, which is
derivable from two different beam members of the same iteration. -/
def w7oracle : String → Option ℚ :=
  fun s =>
    if s = "c:1" then none
    else if s = "a:1/b:1/c:1" then some 10
    else if s = "b:1/c:1" then some 5
    else if s = "a:1/c:1" then some 4
    else if s = "a:1/b:1" then some 1
    else if s = "b:1" then some 3
    else if s = "a:1" then some 2
    else some 0

/-- The fully skilled seed over `w7tmpl` with budget 1 (used for the C9
witness). -/
def w9tree : PlayerTalentTree :=
  seedTree w7tmpl 1 []

/-- The allocation obtained from `w9tree` by removing the point from
choice 0 of node `a` (used for the C9 witness). -/
def w9dec : PlayerTalentTree :=
  (PlayerTalentTree.decrement_node w9tree.copy "a" 0).getD w9tree

/-- Fixture for the C1 witness: node `a` in gate 0 (2-point choice), node
`b` in gate 1 whose threshold 5 exceeds the points below it. -/
def w1tmpl : TalentTree :=
  { gate_info := { gates := [{ gate_id := 0, points_required_below := 0 },
                             { gate_id := 1, points_required_below := 5 }] }
    nodes := [
      { node_id := "a"
        choices := [{ talent_name := "alpha", max_points := 2 }]
        gate_id := 0
        parent_node_ids := []
        child_node_ids := []
        sort_key := "1" },
      { node_id := "b"
        choices := [{ talent_name := "beta", max_points := 1 }]
        gate_id := 1
        parent_node_ids := []
        child_node_ids := []
        sort_key := "2" }] }

/-- The fully skilled allocation over `w1tmpl`. -/
def w1tree : PlayerTalentTree := (PlayerTalentTree.init w1tmpl 6).skill_all_nodes []

/-- The selection of node `a` in `w1tree`. -/
def w1sel : PlayerTalentNodeSelection :=
  { node_reference :=
      { node_id := "a"
        choices := [{ talent_name := "alpha", max_points := 2 }]
        gate_id := 0
        parent_node_ids := []
        child_node_ids := []
        sort_key := "1" }
    points_spent_by_choice_index := [2] }

/-- Running total accumulated by the gate loop before it reaches the first
occurrence of gate `H` in the scanned list. -/
def prefixSpentSum (spent : List (Nat × Int)) : List Gate → Gate → Int
  | [], _ => 0
  | g :: rest, H =>
    if g = H then 0 else gateGet spent g.gate_id + prefixSpentSum spent rest H

/-- Sum of the stored gate counters over the gates with id below `h`. -/
def gatesBelowSum (spent : List (Nat × Int)) (h : Nat) : List Gate → Int
  | [] => 0
  | g :: rest =>
    (if g.gate_id < h then gateGet spent g.gate_id else 0) +
      gatesBelowSum spent h rest

/-- Sum of the per-gate point sums of an allocation over gates with id
below `h`. -/
def gatesBelowNat (h : Nat)
    (sels : List (String × PlayerTalentNodeSelection)) : List Gate → Nat
  | [] => 0
  | g :: rest =>
    (if g.gate_id < h then sumPointsInGate g.gate_id sels else 0) +
      gatesBelowNat h sels rest

/-- `v` counted once for every gate in the list whose id is `x` and below
`h`. -/
def pickTerm (h x v : Nat) : List Gate → Nat
  | [] => 0
  | g :: rest =>
    (if g.gate_id < h ∧ x = g.gate_id then v else 0) + pickTerm h x v rest

/-- The per-entry selection update performed by `skill_all_nodes`. -/
def skillUpd (except_for : List (String × Nat))
    (kv : String × PlayerTalentNodeSelection) :
    String × PlayerTalentNodeSelection :=
  (kv.1,
    { kv.2 with
      points_spent_by_choice_index :=
        (skillChoices kv.1 except_for 0 kv.2.node_reference.choices
          kv.2.points_spent_by_choice_index).1 })

/-- The per-entry gate-map update performed by `skill_all_nodes`. -/
def gateStep (except_for : List (String × Nat)) (d : List (Nat × Int))
    (kv : String × PlayerTalentNodeSelection) : List (Nat × Int) :=
  gateAdd d kv.2.node_reference.gate_id
    (skillChoices kv.1 except_for 0 kv.2.node_reference.choices
      kv.2.points_spent_by_choice_index).2

/-- Total number of points `skill_all_nodes` adds to the gate `g` counter. -/
def sumSkillAdds (except_for : List (String × Nat)) (g : Nat) :
    List (String × PlayerTalentNodeSelection) → Nat
  | [] => 0
  | kv :: rest =>
    (if kv.2.node_reference.gate_id = g then
      (skillChoices kv.1 except_for 0 kv.2.node_reference.choices
        kv.2.points_spent_by_choice_index).2
      else 0) + sumSkillAdds except_for g rest

/-! ## Dictionary lemmas -/

theorem dictGet_dictInsert_self {α : Type} (d : List (String × α)) (k : String) (v : α) :
    dictGet (dictInsert k v d) k = some v := by
  induction d with
  | nil => simp [dictInsert, dictGet]
  | cons kv rest ih =>
    by_cases h : kv.1 = k
    · simp [dictInsert, dictGet, h]
    · simp [dictInsert, dictGet, h, ih]

theorem dictGet_dictInsert_ne {α : Type} (d : List (String × α)) {k k2 : String}
    (v : α) (h : k ≠ k2) : dictGet (dictInsert k v d) k2 = dictGet d k2 := by
  induction d with
  | nil => simp [dictInsert, dictGet, h]
  | cons kv rest ih =>
    by_cases h2 : kv.1 = k
    · simp [dictInsert, dictGet, h2, h]
    · simp [dictInsert, dictGet, h2, ih]

theorem dictInsert_keys {α : Type} (d : List (String × α)) (k : String) (v : α) :
    (dictInsert k v d).map Prod.fst =
      if k ∈ d.map Prod.fst then d.map Prod.fst else d.map Prod.fst ++ [k] := by
  induction d with
  | nil => simp [dictInsert]
  | cons kv rest ih =>
    by_cases h : kv.1 = k
    · simp [dictInsert, h]
    · have h2 : ¬ k = kv.1 := fun e => h e.symm
      by_cases hm : k ∈ rest.map Prod.fst <;>
        simp [dictInsert, h, ih, h2, hm]

theorem dictGet_isSome_of_mem {α : Type} {d : List (String × α)} {k : String}
    (h : k ∈ d.map Prod.fst) : (dictGet d k).isSome := by
  induction d with
  | nil => simp at h
  | cons kv rest ih =>
    by_cases h2 : kv.1 = k
    · simp [dictGet, h2]
    · have : k ∈ rest.map Prod.fst := by
        rcases List.mem_map.mp h with ⟨x, hx, he⟩
        rcases List.mem_cons.mp hx with h3 | h3
        · exact absurd (h3 ▸ he) h2
        · exact List.mem_map.mpr ⟨x, h3, he⟩
      simp [dictGet, h2, ih this]

theorem mem_of_dictGet {α : Type} {d : List (String × α)} {k : String} {v : α}
    (h : dictGet d k = some v) : (k, v) ∈ d := by
  induction d with
  | nil => simp [dictGet] at h
  | cons kv rest ih =>
    by_cases h2 : kv.1 = k
    · cases kv with
      | mk a b =>
        simp only at h2
        subst h2
        simp [dictGet] at h
        subst h
        simp
    · simp [dictGet, h2] at h
      exact List.mem_cons_of_mem _ (ih h)

theorem dictGet_eq_none_of_not_mem {α : Type} {d : List (String × α)} {k : String}
    (h : k ∉ d.map Prod.fst) : dictGet d k = none := by
  induction d with
  | nil => rfl
  | cons kv rest ih =>
    simp only [List.map_cons, List.mem_cons] at h
    push_neg at h
    have h1 : ¬ kv.1 = k := fun e => h.1 e.symm
    simp [dictGet, h1, ih h.2]

/-- A successful lookup splits the dict into a prefix without the key, the
hit entry, and a suffix. -/
theorem dictGet_split {α : Type} {d : List (String × α)} {k : String} {v : α}
    (h : dictGet d k = some v) :
    ∃ pre suf, d = pre ++ (k, v) :: suf ∧ ∀ kv ∈ pre, kv.1 ≠ k := by
  induction d with
  | nil => simp [dictGet] at h
  | cons kv rest ih =>
    by_cases h2 : kv.1 = k
    · simp [dictGet, h2] at h
      refine ⟨[], rest, ?_, by simp⟩
      cases kv
      simp_all
    · simp [dictGet, h2] at h
      rcases ih h with ⟨pre, suf, he, hpre⟩
      exact ⟨kv :: pre, suf, by simp [he], by
        intro x hx
        rcases List.mem_cons.mp hx with h3 | h3
        · exact h3 ▸ h2
        · exact hpre x h3⟩

/-- Inserting at a key that first occurs right after `pre` overwrites that
occurrence in place. -/
theorem dictInsert_append {α : Type} (pre suf : List (String × α)) {k : String}
    (v v0 : α) (hpre : ∀ kv ∈ pre, kv.1 ≠ k) :
    dictInsert k v (pre ++ (k, v0) :: suf) = pre ++ (k, v) :: suf := by
  induction pre with
  | nil => simp [dictInsert]
  | cons kv rest ih =>
    have h1 : kv.1 ≠ k := hpre kv (by simp)
    have h2 := ih (fun x hx => hpre x (List.mem_cons_of_mem _ hx))
    simp only [List.cons_append, dictInsert, if_neg h1, List.append_eq] at h2 ⊢
    rw [h2]

theorem gateGet_gateAdd (d : List (Nat × Int)) (g g2 : Nat) (x : Int) :
    gateGet (gateAdd d g x) g2 =
      if g2 = g then gateGet d g2 + x else gateGet d g2 := by
  induction d with
  | nil =>
    by_cases h : g2 = g
    · subst h
      simp [gateAdd, gateGet]
    · have h2 : ¬ g = g2 := fun e => h e.symm
      simp [gateAdd, gateGet, h, h2]
  | cons kv rest ih =>
    by_cases hk : kv.1 = g
    · by_cases h2 : g2 = g
      · subst h2
        simp [gateAdd, gateGet, hk]
      · have h3 : ¬ g = g2 := fun e => h2 e.symm
        have h4 : ¬ kv.1 = g2 := fun e => h2 (e.symm.trans hk)
        simp [gateAdd, gateGet, hk, h2, h3, h4]
    · by_cases hv : kv.1 = g2
      · have h2 : ¬ g2 = g := fun e => hk (hv.trans e)
        simp [gateAdd, gateGet, hk, hv, h2]
      · simp [gateAdd, gateGet, hk, hv, ih]

/-! ## Sum lemmas -/

theorem sum_set_eq (l : List Nat) (i v p : Nat) (h : l.get? i = some p) :
    (l.set i v).sum + p = l.sum + v := by
  induction l generalizing i with
  | nil => simp [List.get?] at h
  | cons a rest ih =>
    cases i with
    | zero =>
      simp only [List.get?_cons_zero, Option.some.injEq] at h
      subst h
      simp [List.set]
      omega
    | succ j =>
      simp only [List.get?_cons_succ] at h
      have := ih j h
      simp [List.set, List.sum_cons]
      omega

theorem sumPointsInGate_append (g : Nat)
    (a b : List (String × PlayerTalentNodeSelection)) :
    sumPointsInGate g (a ++ b) = sumPointsInGate g a + sumPointsInGate g b := by
  induction a with
  | nil => simp [sumPointsInGate]
  | cons kv rest ih => simp [sumPointsInGate, ih]; omega

theorem sumPointsBelow_append (h : Nat)
    (a b : List (String × PlayerTalentNodeSelection)) :
    sumPointsBelow h (a ++ b) = sumPointsBelow h a + sumPointsBelow h b := by
  induction a with
  | nil => simp [sumPointsBelow]
  | cons kv rest ih => simp [sumPointsBelow, ih]; omega

/-! ## `decrement_node`: success and frame conditions -/

/-- Successful `remove_point_from_choice`, unfolded. -/
theorem remove_point_eq {s : PlayerTalentNodeSelection} {ci p : Nat}
    (hlen : ci < s.node_reference.choices.length)
    (hp : s.points_spent_by_choice_index.get? ci = some p) (hpos : 0 < p) :
    s.remove_point_from_choice ci =
      some { s with
        points_spent_by_choice_index :=
          s.points_spent_by_choice_index.set ci (p - 1) } := by
  have h1 : ¬ ci ≥ s.node_reference.choices.length := by omega
  have hzero : ¬ p = 0 := by omega
  have hp2 : s.points_spent_by_choice_index[ci]? = some p := by
    rw [← List.get?_eq_getElem?]
    exact hp
  simp [PlayerTalentNodeSelection.remove_point_from_choice, h1, hp2, hzero]

/-- Successful `decrement_node`, unfolded. -/
theorem decrement_node_eq {t : PlayerTalentTree} {nid : String} {ci : Nat}
    {sel : PlayerTalentNodeSelection} {p : Nat}
    (hsel : dictGet t.selection_by_node_id nid = some sel)
    (hlen : ci < sel.node_reference.choices.length)
    (hp : sel.points_spent_by_choice_index.get? ci = some p) (hpos : 0 < p) :
    t.decrement_node nid ci =
      some { t with
        selection_by_node_id :=
          dictInsert nid
            { sel with
              points_spent_by_choice_index :=
                sel.points_spent_by_choice_index.set ci (p - 1) }
            t.selection_by_node_id
        spent_points_by_gate :=
          gateAdd t.spent_points_by_gate sel.node_reference.gate_id (-1) } := by
  simp [PlayerTalentTree.decrement_node, hsel, remove_point_eq hlen hp hpos]

/-! ## Claim C4 -/

/-- **C4.** For every allocation and every (node id, choice index) pair whose
choice currently holds at least one point, `decrement_node` succeeds,
decreases `get_total_points_spent` by exactly one, decreases the stored
cumulative total of that node's gate by exactly one, and leaves the
cumulative totals of all other gates and the points spent in every other
(node, choice) pair unchanged. -/
theorem claim_C4_frame (t : PlayerTalentTree) (nid : String) (ci : Nat)
    (sel : PlayerTalentNodeSelection) (p : Nat)
    (hsel : dictGet t.selection_by_node_id nid = some sel)
    (hlen : ci < sel.node_reference.choices.length)
    (hp : sel.points_spent_by_choice_index.get? ci = some p) (hpos : 0 < p) :
    ∃ t2, t.decrement_node nid ci = some t2 ∧
      t2.get_total_points_spent + 1 = t.get_total_points_spent ∧
      gateGet t2.spent_points_by_gate sel.node_reference.gate_id =
        gateGet t.spent_points_by_gate sel.node_reference.gate_id - 1 ∧
      (∀ g, g ≠ sel.node_reference.gate_id →
        gateGet t2.spent_points_by_gate g = gateGet t.spent_points_by_gate g) ∧
      (∀ n c, ¬ (n = nid ∧ c = ci) → pointsAt t2 n c = pointsAt t n c) := by
  refine ⟨_, decrement_node_eq hsel hlen hp hpos, ?_, ?_, ?_, ?_⟩
  · obtain ⟨pre, suf, hsplit, hpre⟩ := dictGet_split hsel
    have hins :
        dictInsert nid
          { sel with
            points_spent_by_choice_index :=
              sel.points_spent_by_choice_index.set ci (p - 1) }
          (pre ++ (nid, sel) :: suf) =
        pre ++ (nid,
          { sel with
            points_spent_by_choice_index :=
              sel.points_spent_by_choice_index.set ci (p - 1) }) :: suf :=
      dictInsert_append pre suf _ _ hpre
    have hsum := sum_set_eq sel.points_spent_by_choice_index ci (p - 1) p hp
    simp [PlayerTalentTree.get_total_points_spent, hins, hsplit, List.map_append,
      List.sum_append]
    omega
  · simp [gateGet_gateAdd]
    omega
  · intro g hg
    simp [gateGet_gateAdd, hg]
  · intro n c hne
    by_cases hn : n = nid
    · subst hn
      have hc : ci ≠ c := fun e => hne ⟨rfl, e.symm⟩
      unfold pointsAt
      rw [dictGet_dictInsert_self, hsel]
      exact List.get?_set_ne _ _ hc
    · have h2 : nid ≠ n := fun e => hn e.symm
      unfold pointsAt
      rw [dictGet_dictInsert_ne _ _ h2]

/-! ## Well-formedness

The icy-veins converter guarantees (spec section 6) that every parent/child
reference of a template node resolves to a node of the tree.  `TalentTree.wf`
captures this; `PlayerTalentTree.wf` additionally states that the selection
dict is keyed exactly like the template dict, that every selection's
`node_reference` is the template node stored under its key, and that every
points vector has one entry per choice — all properties the Python
constructor establishes and the mutating operations preserve. -/

/-- Membership in a `dictInsert` result. -/
theorem mem_dictInsert {α : Type} {kv : String × α} {k : String} {v : α}
    {d : List (String × α)} (h : kv ∈ dictInsert k v d) :
    kv = (k, v) ∨ kv ∈ d := by
  induction d with
  | nil => simpa [dictInsert] using h
  | cons kv0 rest ih =>
    by_cases h2 : kv0.1 = k
    · simp only [dictInsert, if_pos h2, List.mem_cons] at h
      rcases h with h | h
      · exact Or.inl h
      · exact Or.inr (List.mem_cons_of_mem _ h)
    · simp only [dictInsert, if_neg h2, List.mem_cons] at h
      rcases h with h | h
      · exact Or.inr (h ▸ List.mem_cons_self _ _)
      · rcases ih h with h3 | h3
        · exact Or.inl h3
        · exact Or.inr (List.mem_cons_of_mem _ h3)

/-- Members of a dict built by folding `dictInsert` over a list. -/
theorem mem_foldl_dictInsert {β α : Type} (f : β → String) (g : β → α)
    (l : List β) (d0 : List (String × α)) :
    ∀ kv ∈ l.foldl (fun d b => dictInsert (f b) (g b) d) d0,
      kv ∈ d0 ∨ ∃ b ∈ l, kv = (f b, g b) := by
  induction l generalizing d0 with
  | nil => intro kv h; exact Or.inl h
  | cons b rest ih =>
    intro kv h
    simp only [List.foldl_cons] at h
    rcases ih (dictInsert (f b) (g b) d0) kv h with h2 | h2
    · rcases mem_dictInsert h2 with h3 | h3
      · exact Or.inr ⟨b, List.mem_cons_self _ _, h3⟩
      · exact Or.inl h3
    · rcases h2 with ⟨b2, hb2, he⟩
      exact Or.inr ⟨b2, List.mem_cons_of_mem _ hb2, he⟩

/-- A hit in the template dict is a node of the template stored under its
own id. -/
theorem templateDict_mem {tmpl : TalentTree} {k : String} {n : TalentTreeNode}
    (h : dictGet (templateDict tmpl) k = some n) :
    n ∈ tmpl.nodes ∧ n.node_id = k := by
  have hmem := mem_of_dictGet h
  rcases mem_foldl_dictInsert (fun n : TalentTreeNode => n.node_id) id
      tmpl.nodes [] (k, n) hmem with h2 | h2
  · simp at h2
  · rcases h2 with ⟨b, hb, he⟩
    have h3 : k = b.node_id ∧ n = b := by
      constructor
      · exact congrArg Prod.fst he
      · exact congrArg Prod.snd he
    exact ⟨h3.2 ▸ hb, by rw [h3.2, h3.1]⟩

theorem mem_keys_of_isSome {α : Type} {d : List (String × α)} {k : String}
    (h : (dictGet d k).isSome) : k ∈ d.map Prod.fst := by
  rcases Option.isSome_iff_exists.mp h with ⟨v, hv⟩
  exact List.mem_map.mpr ⟨(k, v), mem_of_dictGet hv, rfl⟩





/-- In a well-formed allocation every selection lookup that succeeds in the
template dict succeeds in the selection dict. -/
theorem wf_sel_isSome {t : PlayerTalentTree} (hwf : t.wf) {k : String}
    (h : (dictGet (templateDict t.tree_template) k).isSome) :
    (dictGet t.selection_by_node_id k).isSome := by
  apply dictGet_isSome_of_mem
  rw [hwf.2.1]
  exact mem_keys_of_isSome h

theorem hasOtherValidParent_isSome {t : PlayerTalentTree} {nid : String}
    {parents : List String}
    (h : ∀ p ∈ parents, p ≠ nid → (dictGet t.selection_by_node_id p).isSome) :
    (hasOtherValidParent t nid parents).isSome := by
  induction parents with
  | nil => simp [hasOtherValidParent]
  | cons p rest ih =>
    by_cases hp : p = nid
    · simp only [hasOtherValidParent, if_pos hp]
      exact ih (fun q hq => h q (List.mem_cons_of_mem _ hq))
    · rcases Option.isSome_iff_exists.mp (h p (List.mem_cons_self _ _) hp) with ⟨ps, hps⟩
      simp only [hasOtherValidParent, if_neg hp, hps]
      by_cases hf : ps.has_fully_skilled_choice
      · simp [hf]
      · simp only [hf, Bool.false_eq_true, if_false]
        exact ih (fun q hq hqn => h q (List.mem_cons_of_mem _ hq) hqn)

/-- In a well-formed allocation the dependency check never raises. -/
theorem dependencyCheck_isSome {t : PlayerTalentTree} (hwf : t.wf) {nid : String}
    {v : Bool} {children : List String}
    (h : ∀ c ∈ children, (dictGet t.selection_by_node_id c).isSome) :
    (dependencyCheck t nid v children).isSome := by
  induction children with
  | nil => simp [dependencyCheck]
  | cons c rest ih =>
    rcases Option.isSome_iff_exists.mp (h c (List.mem_cons_self _ _)) with ⟨cs, hcs⟩
    have hmem := mem_of_dictGet hcs
    have href := (hwf.2.2 (c, cs) hmem).1
    have hnode := templateDict_mem href
    have hpar : ∀ p ∈ cs.node_reference.parent_node_ids,
        (dictGet t.selection_by_node_id p).isSome := by
      intro p hp
      exact wf_sel_isSome hwf ((hwf.1 cs.node_reference hnode.1).2 p hp)
    have hhv := @hasOtherValidParent_isSome t nid
      cs.node_reference.parent_node_ids (fun p hp _ => hpar p hp)
    rcases Option.isSome_iff_exists.mp hhv with ⟨hv, hhv2⟩
    have ihr := ih (fun c2 hc2 => h c2 (List.mem_cons_of_mem _ hc2))
    by_cases hpts : cs.holds_talent_points
    · by_cases hb : (hv || v) = true
      · simp [dependencyCheck, hcs, hpts, hhv2, hb, ihr]
      · simp [dependencyCheck, hcs, hpts, hhv2, hb]
    · simp [dependencyCheck, hcs, hpts, ihr]

/-- In a well-formed allocation, `can_node_be_decremented` on a known node id
returns a boolean (it never raises). -/
theorem canDec_isSome {t : PlayerTalentTree} (hwf : t.wf) {nid : String}
    {sel : PlayerTalentNodeSelection}
    (hsel : dictGet t.selection_by_node_id nid = some sel) (ci : Nat) :
    (t.can_node_be_decremented nid ci).isSome := by
  have href := (hwf.2.2 (nid, sel) (mem_of_dictGet hsel)).1
  have hnode := templateDict_mem href
  have hch : ∀ c ∈ sel.node_reference.child_node_ids,
      (dictGet t.selection_by_node_id c).isSome := by
    intro c hc
    exact wf_sel_isSome hwf ((hwf.1 sel.node_reference hnode.1).1 c hc)
  have hdep := @dependencyCheck_isSome t hwf nid
    sel.violates_single_choice_rule sel.node_reference.child_node_ids hch
  rcases Option.isSome_iff_exists.mp hdep with ⟨b, hb⟩
  by_cases h1 : sel.holds_talent_points
  · by_cases h2 : ci ∈ sel.get_choice_indices_with_points
    · cases b <;>
        simp [PlayerTalentTree.can_node_be_decremented, hsel, h1, h2, href, hb]
      by_cases h3 : gateLoop sel.node_reference.gate_id t.spent_points_by_gate
          (sortedGates t) 0 <;> simp [h3]
    · simp [PlayerTalentTree.can_node_be_decremented, hsel, h1, h2]
  · simp [PlayerTalentTree.can_node_be_decremented, hsel, h1]



/-- Witness for C4 at a concrete allocation. -/
theorem claim_C4_witness :
    dictGet w4tree.selection_by_node_id "a" = some w4sel ∧
    0 < w4sel.node_reference.choices.length ∧
    w4sel.points_spent_by_choice_index.get? 0 = some 2 ∧ 0 < 2 ∧
    (∃ t2, w4tree.decrement_node "a" 0 = some t2 ∧
      t2.get_total_points_spent + 1 = w4tree.get_total_points_spent ∧
      gateGet t2.spent_points_by_gate w4sel.node_reference.gate_id =
        gateGet w4tree.spent_points_by_gate w4sel.node_reference.gate_id - 1 ∧
      (∀ g, g ≠ w4sel.node_reference.gate_id →
        gateGet t2.spent_points_by_gate g = gateGet w4tree.spent_points_by_gate g) ∧
      (∀ n c, ¬ (n = "a" ∧ c = 0) → pointsAt t2 n c = pointsAt w4tree n c)) :=
  ⟨by decide, by decide, by decide, by decide,
    claim_C4_frame w4tree "a" 0 w4sel 2 (by decide) (by decide) (by decide)
      (by decide)⟩

/-! ## Claim C8 (corrected)

The code raises (an uncaught `ValueError`) for an unknown node id, but an
out-of-range choice index is caught by the `choice_index not in
choice_indices_with_points` test, which raises the internally caught
`DecrementNotPossible`, so the call returns `False` instead of raising. -/

/-- **C8, counterexample.**  On a well-formed allocation with node `a`
having exactly one choice, the out-of-range choice index `5` makes
`can_node_be_decremented` return `False` (`some false`) instead of raising
an error (`none`), contradicting the claim that an out-of-range choice
index fails fast. -/
theorem claim_C8_counterexample :
    (w4tree.can_node_be_decremented "a" 5 = some false) ∧
    dictGet w4tree.selection_by_node_id "a" = some w4sel ∧
    5 ≥ w4sel.node_reference.choices.length := by decide

/-- **C8, amended.**  Evaluating legality with an unknown node id raises an
error (modelled `none`); for a known node id on a well-formed allocation the
evaluation never raises — every outcome, including an out-of-range choice
index, is an ordinary boolean result. -/
theorem claim_C8_amended :
    (∀ (t : PlayerTalentTree) (nid : String) (ci : Nat),
      dictGet t.selection_by_node_id nid = none →
      t.can_node_be_decremented nid ci = none) ∧
    (∀ (t : PlayerTalentTree) (nid : String) (ci : Nat)
      (sel : PlayerTalentNodeSelection), t.wf →
      dictGet t.selection_by_node_id nid = some sel →
      ∃ b, t.can_node_be_decremented nid ci = some b) := by
  constructor
  · intro t nid ci h
    simp [PlayerTalentTree.can_node_be_decremented, h]
  · intro t nid ci sel hwf hsel
    exact Option.isSome_iff_exists.mp (canDec_isSome hwf hsel ci)

/-- Witness for C8 at a concrete allocation: an unknown node id, and a valid
node id with an out-of-range choice index. -/
theorem claim_C8_witness :
    dictGet w4tree.selection_by_node_id "zz" = none ∧
    w4tree.can_node_be_decremented "zz" 0 = none ∧
    w4tree.wf ∧
    dictGet w4tree.selection_by_node_id "a" = some w4sel ∧
    (∃ b, w4tree.can_node_be_decremented "a" 5 = some b) :=
  ⟨by decide, claim_C8_amended.1 w4tree "zz" 0 (by decide), by decide, by decide,
    claim_C8_amended.2 w4tree "a" 5 w4sel (by decide) (by decide)⟩

/-! ## Claim C2: dependency preservation -/

theorem holds_of_mem_indicesWithPoints {ci i : Nat} {ps : List Nat}
    (h : ci ∈ PlayerTalentNodeSelection.indicesWithPoints i ps) :
    ps.any (fun p => p ≠ 0) := by
  induction ps generalizing i with
  | nil => simp [PlayerTalentNodeSelection.indicesWithPoints] at h
  | cons p rest ih =>
    by_cases hp : p > 0
    · simp
      left
      omega
    · simp only [PlayerTalentNodeSelection.indicesWithPoints, if_neg hp] at h
      simp
      right
      simpa using ih h

/-- A choice index with points makes the whole node hold points. -/
theorem holds_of_mem_cips {s : PlayerTalentNodeSelection} {ci : Nat}
    (h : ci ∈ s.get_choice_indices_with_points) : s.holds_talent_points = true :=
  holds_of_mem_indicesWithPoints h

theorem hasOtherValidParent_eq_false {t : PlayerTalentTree} {nid : String}
    {parents : List String}
    (hres : ∀ p ∈ parents, p ≠ nid → (dictGet t.selection_by_node_id p).isSome)
    (hno : ∀ p ∈ parents, p ≠ nid → ∀ ps, dictGet t.selection_by_node_id p = some ps →
      ps.has_fully_skilled_choice = false) :
    hasOtherValidParent t nid parents = some false := by
  induction parents with
  | nil => rfl
  | cons p rest ih =>
    by_cases hp : p = nid
    · simp only [hasOtherValidParent, if_pos hp]
      exact ih (fun q hq => hres q (List.mem_cons_of_mem _ hq))
        (fun q hq => hno q (List.mem_cons_of_mem _ hq))
    · rcases Option.isSome_iff_exists.mp (hres p (List.mem_cons_self _ _) hp) with ⟨ps, hps⟩
      have hfull := hno p (List.mem_cons_self _ _) hp ps hps
      simp only [hasOtherValidParent, if_neg hp, hps, hfull, Bool.false_eq_true,
        if_false]
      exact ih (fun q hq => hres q (List.mem_cons_of_mem _ hq))
        (fun q hq => hno q (List.mem_cons_of_mem _ hq))

theorem hasOtherValidParent_eq_true {t : PlayerTalentTree} {nid : String}
    {parents : List String}
    (hres : ∀ p ∈ parents, p ≠ nid → (dictGet t.selection_by_node_id p).isSome)
    (hex : ∃ p ∈ parents, p ≠ nid ∧ ∃ ps,
      dictGet t.selection_by_node_id p = some ps ∧
      ps.has_fully_skilled_choice = true) :
    hasOtherValidParent t nid parents = some true := by
  induction parents with
  | nil => simp at hex
  | cons p0 rest ih =>
    rcases hex with ⟨p, hpmem, hpnid, ps, hps, hfull⟩
    by_cases hp0 : p0 = nid
    · simp only [hasOtherValidParent, if_pos hp0]
      have hpr : p ∈ rest := by
        rcases List.mem_cons.mp hpmem with h | h
        · exact absurd (h ▸ hp0) hpnid
        · exact h
      exact ih (fun q hq => hres q (List.mem_cons_of_mem _ hq))
        ⟨p, hpr, hpnid, ps, hps, hfull⟩
    · rcases Option.isSome_iff_exists.mp (hres p0 (List.mem_cons_self _ _) hp0) with
        ⟨ps0, hps0⟩
      by_cases hf0 : ps0.has_fully_skilled_choice
      · simp [hasOtherValidParent, if_neg hp0, hps0, hf0]
      · simp only [hasOtherValidParent, if_neg hp0, hps0, hf0, Bool.false_eq_true,
          if_false]
        have hpr : p ∈ rest := by
          rcases List.mem_cons.mp hpmem with h | h
          · subst h
            rw [hps0] at hps
            cases hps
            exact absurd hfull (by simp [hf0])
          · exact h
        exact ih (fun q hq => hres q (List.mem_cons_of_mem _ hq))
          ⟨p, hpr, hpnid, ps, hps, hfull⟩

theorem dependencyCheck_eq_true {t : PlayerTalentTree} {nid : String} {v : Bool}
    {children : List String}
    (hall : ∀ c ∈ children, ∃ cs, dictGet t.selection_by_node_id c = some cs ∧
      ∃ b, hasOtherValidParent t nid cs.node_reference.parent_node_ids = some b ∧
        (cs.holds_talent_points = true → (b || v) = true)) :
    dependencyCheck t nid v children = some true := by
  induction children with
  | nil => rfl
  | cons c rest ih =>
    rcases hall c (List.mem_cons_self _ _) with ⟨cs, hcs, b, hb, hbv⟩
    have ihr := ih (fun c2 hc2 => hall c2 (List.mem_cons_of_mem _ hc2))
    by_cases hpts : cs.holds_talent_points
    · simp only [dependencyCheck, hcs, hpts, hb, hbv hpts, if_true, ihr]
    · simp only [dependencyCheck, hcs, hpts, Bool.false_eq_true, if_false, ihr]

theorem dependencyCheck_eq_false {t : PlayerTalentTree} {nid : String}
    {children : List String} {c : String} {cs : PlayerTalentNodeSelection}
    (hall : ∀ c2 ∈ children, ∃ cs2, dictGet t.selection_by_node_id c2 = some cs2 ∧
      (hasOtherValidParent t nid cs2.node_reference.parent_node_ids).isSome)
    (hmem : c ∈ children) (hcs : dictGet t.selection_by_node_id c = some cs)
    (hpts : cs.holds_talent_points = true)
    (hhv : hasOtherValidParent t nid cs.node_reference.parent_node_ids = some false) :
    dependencyCheck t nid false children = some false := by
  induction children with
  | nil => simp at hmem
  | cons c0 rest ih =>
    rcases hall c0 (List.mem_cons_self _ _) with ⟨cs0, hcs0, hhv0⟩
    rcases Option.isSome_iff_exists.mp hhv0 with ⟨b0, hb0⟩
    have ihr := fun hm => ih (fun c2 hc2 => hall c2 (List.mem_cons_of_mem _ hc2)) hm
    by_cases hpts0 : cs0.holds_talent_points
    · cases b0 with
      | false =>
        simp [dependencyCheck, hcs0, hpts0, hb0]
      | true =>
        have hcr : c ∈ rest := by
          rcases List.mem_cons.mp hmem with h | h
          · subst h
            rw [hcs0] at hcs
            cases hcs
            rw [hb0] at hhv
            cases hhv
          · exact h
        simp only [dependencyCheck, hcs0, hpts0, hb0, Bool.true_or, if_true]
        exact ihr hcr
    · have hcr : c ∈ rest := by
        rcases List.mem_cons.mp hmem with h | h
        · subst h
          rw [hcs0] at hcs
          cases hcs
          exact absurd hpts (by simp [hpts0])
        · exact h
      simp only [dependencyCheck, hcs0, hpts0, Bool.false_eq_true, if_false]
      exact ihr hcr

/-- **C2.** For every well-formed allocation, node `N` (with selection
`sel`) and choice index `ci` holding at least one point: (a) if some child
of `N` holds points, no parent of that child other than `N` has a fully
skilled choice, and `N` is not in the single-choice-violating state, then
`can_node_be_decremented` returns `False`; conversely the dependency check
does not block the removal (b1) when `N` is in the violating state or (b2)
when every points-holding child of `N` has some other parent with a fully
skilled choice. -/
theorem claim_C2_dependency (t : PlayerTalentTree) (nid : String) (ci : Nat)
    (sel : PlayerTalentNodeSelection) (hwf : t.wf)
    (hsel : dictGet t.selection_by_node_id nid = some sel)
    (hold : ci ∈ sel.get_choice_indices_with_points) :
    ((sel.violates_single_choice_rule = false ∧
      ∃ c ∈ sel.node_reference.child_node_ids, ∃ cs,
        dictGet t.selection_by_node_id c = some cs ∧
        cs.holds_talent_points = true ∧
        (∀ p ∈ cs.node_reference.parent_node_ids, p ≠ nid →
          ∀ ps, dictGet t.selection_by_node_id p = some ps →
            ps.has_fully_skilled_choice = false)) →
      t.can_node_be_decremented nid ci = some false) ∧
    (sel.violates_single_choice_rule = true →
      dependencyCheck t nid sel.violates_single_choice_rule
        sel.node_reference.child_node_ids = some true) ∧
    ((∀ c ∈ sel.node_reference.child_node_ids, ∀ cs,
        dictGet t.selection_by_node_id c = some cs →
        cs.holds_talent_points = true →
        ∃ p ∈ cs.node_reference.parent_node_ids, p ≠ nid ∧ ∃ ps,
          dictGet t.selection_by_node_id p = some ps ∧
          ps.has_fully_skilled_choice = true) →
      dependencyCheck t nid sel.violates_single_choice_rule
        sel.node_reference.child_node_ids = some true) := by
  have href := (hwf.2.2 (nid, sel) (mem_of_dictGet hsel)).1
  have hnode := templateDict_mem href
  have hchres : ∀ c ∈ sel.node_reference.child_node_ids,
      (dictGet t.selection_by_node_id c).isSome := by
    intro c hc
    exact wf_sel_isSome hwf ((hwf.1 sel.node_reference hnode.1).1 c hc)
  have hparres : ∀ (cs : PlayerTalentNodeSelection),
      (∃ c, dictGet t.selection_by_node_id c = some cs) →
      ∀ p ∈ cs.node_reference.parent_node_ids,
        (dictGet t.selection_by_node_id p).isSome := by
    rintro cs ⟨c, hcs⟩ p hp
    have hcref := (hwf.2.2 (c, cs) (mem_of_dictGet hcs)).1
    have hcnode := templateDict_mem hcref
    exact wf_sel_isSome hwf ((hwf.1 cs.node_reference hcnode.1).2 p hp)
  have hall : ∀ c2 ∈ sel.node_reference.child_node_ids, ∃ cs2,
      dictGet t.selection_by_node_id c2 = some cs2 ∧
      (hasOtherValidParent t nid cs2.node_reference.parent_node_ids).isSome := by
    intro c2 hc2
    rcases Option.isSome_iff_exists.mp (hchres c2 hc2) with ⟨cs2, hcs2⟩
    refine ⟨cs2, hcs2, hasOtherValidParent_isSome ?_⟩
    intro p hp _
    exact hparres cs2 ⟨c2, hcs2⟩ p hp
  have hholds := holds_of_mem_cips hold
  refine ⟨?_, ?_, ?_⟩
  · rintro ⟨hviol, c, hcmem, cs, hcs, hpts, hno⟩
    have hhv : hasOtherValidParent t nid cs.node_reference.parent_node_ids =
        some false :=
      hasOtherValidParent_eq_false
        (fun p hp _ => hparres cs ⟨c, hcs⟩ p hp) hno
    have hdep := dependencyCheck_eq_false hall hcmem hcs hpts hhv
    simp [PlayerTalentTree.can_node_be_decremented, hsel, hholds, hold, href,
      hviol, hdep]
  · intro hviol
    apply dependencyCheck_eq_true
    intro c hc
    rcases hall c hc with ⟨cs, hcs, hhv⟩
    rcases Option.isSome_iff_exists.mp hhv with ⟨b, hb⟩
    exact ⟨cs, hcs, b, hb, fun _ => by simp [hviol]⟩
  · intro hok
    apply dependencyCheck_eq_true
    intro c hc
    rcases hall c hc with ⟨cs, hcs, hhv⟩
    by_cases hpts : cs.holds_talent_points
    · have hhvt := hasOtherValidParent_eq_true
        (fun p hp _ => hparres cs ⟨c, hcs⟩ p hp) (hok c hc cs hcs hpts)
      exact ⟨cs, hcs, true, hhvt, fun _ => rfl⟩
    · rcases Option.isSome_iff_exists.mp hhv with ⟨b, hb⟩
      exact ⟨cs, hcs, b, hb, fun h => absurd h hpts⟩



/-- Witness for C2 at a concrete allocation (node `a` with child `b`). -/
theorem claim_C2_witness :
    w2tree.wf ∧
    dictGet w2tree.selection_by_node_id "a" = some w2selA ∧
    0 ∈ w2selA.get_choice_indices_with_points ∧
    (((w2selA.violates_single_choice_rule = false ∧
      ∃ c ∈ w2selA.node_reference.child_node_ids, ∃ cs,
        dictGet w2tree.selection_by_node_id c = some cs ∧
        cs.holds_talent_points = true ∧
        (∀ p ∈ cs.node_reference.parent_node_ids, p ≠ "a" →
          ∀ ps, dictGet w2tree.selection_by_node_id p = some ps →
            ps.has_fully_skilled_choice = false)) →
      w2tree.can_node_be_decremented "a" 0 = some false) ∧
    (w2selA.violates_single_choice_rule = true →
      dependencyCheck w2tree "a" w2selA.violates_single_choice_rule
        w2selA.node_reference.child_node_ids = some true) ∧
    ((∀ c ∈ w2selA.node_reference.child_node_ids, ∀ cs,
        dictGet w2tree.selection_by_node_id c = some cs →
        cs.holds_talent_points = true →
        ∃ p ∈ cs.node_reference.parent_node_ids, p ≠ "a" ∧ ∃ ps,
          dictGet w2tree.selection_by_node_id p = some ps ∧
          ps.has_fully_skilled_choice = true) →
      dependencyCheck w2tree "a" w2selA.violates_single_choice_rule
        w2selA.node_reference.child_node_ids = some true)) :=
  ⟨by decide, by decide, by decide,
    claim_C2_dependency w2tree "a" 0 w2selA (by decide) (by decide) (by decide)⟩

/-! ## Dict key discipline and `copy` -/

theorem dictInsert_keys_nodup {α : Type} {d : List (String × α)} (k : String) (v : α)
    (h : (d.map Prod.fst).Nodup) : ((dictInsert k v d).map Prod.fst).Nodup := by
  rw [dictInsert_keys]
  by_cases hm : k ∈ d.map Prod.fst
  · simp [hm, h]
  · simp only [hm, if_false]
    refine List.Nodup.append h (List.nodup_singleton k) ?_
    intro a ha hb
    simp only [List.mem_singleton] at hb
    subst hb
    exact hm ha

theorem foldl_dictInsert_keys_nodup {β α : Type} (f : β → String) (g : β → α)
    (l : List β) (d0 : List (String × α)) (h : (d0.map Prod.fst).Nodup) :
    ((l.foldl (fun d b => dictInsert (f b) (g b) d) d0).map Prod.fst).Nodup := by
  induction l generalizing d0 with
  | nil => exact h
  | cons b rest ih =>
    exact ih (dictInsert (f b) (g b) d0) (dictInsert_keys_nodup (f b) (g b) h)

theorem templateDict_keys_nodup (tmpl : TalentTree) :
    ((templateDict tmpl).map Prod.fst).Nodup :=
  foldl_dictInsert_keys_nodup _ _ tmpl.nodes [] (by simp)

/-- The keys of a `dictInsert`-fold do not depend on the inserted values. -/
theorem foldl_dictInsert_keys_congr {β α α2 : Type} (f : β → String) (g : β → α)
    (g2 : β → α2) (l : List β) :
    ∀ (d : List (String × α)) (d2 : List (String × α2)),
      d.map Prod.fst = d2.map Prod.fst →
      (l.foldl (fun acc b => dictInsert (f b) (g b) acc) d).map Prod.fst =
      (l.foldl (fun acc b => dictInsert (f b) (g2 b) acc) d2).map Prod.fst := by
  induction l with
  | nil => intro d d2 h; exact h
  | cons b rest ih =>
    intro d d2 h
    apply ih
    rw [dictInsert_keys, dictInsert_keys, h]

theorem emptySelectionsDict_keys (tmpl : TalentTree) :
    (emptySelectionsDict tmpl).map Prod.fst = (templateDict tmpl).map Prod.fst :=
  foldl_dictInsert_keys_congr (fun n : TalentTreeNode => n.node_id) _ _ tmpl.nodes
    [] [] rfl

/-- Every selection produced by `_get_empty_selections_dict` stores a
template node under its own id with an all-zero points vector. -/
theorem emptySelectionsDict_mem {tmpl : TalentTree}
    {kv : String × PlayerTalentNodeSelection} (h : kv ∈ emptySelectionsDict tmpl) :
    kv.2.node_reference ∈ tmpl.nodes ∧ kv.1 = kv.2.node_reference.node_id ∧
      kv.2.points_spent_by_choice_index =
        kv.2.node_reference.choices.map (fun _ => 0) := by
  rcases mem_foldl_dictInsert (fun n : TalentTreeNode => n.node_id)
      (fun n : TalentTreeNode =>
        ({ node_reference := n
           points_spent_by_choice_index := n.choices.map (fun _ => 0) } :
          PlayerTalentNodeSelection))
      tmpl.nodes [] kv h with h2 | h2
  · simp at h2
  · rcases h2 with ⟨n, hn, he⟩
    subst he
    exact ⟨hn, rfl, rfl⟩

theorem dictInsert_cons_ne {α : Type} {k : String} (v : α) {hd : String × α}
    (d : List (String × α)) (h : hd.1 ≠ k) :
    dictInsert k v (hd :: d) = hd :: dictInsert k v d := by
  simp [dictInsert, h]

theorem foldl_dictInsert_cons {α : Type} (l : List (String × α)) (hd : String × α)
    (base : List (String × α)) (h : ∀ kv ∈ l, kv.1 ≠ hd.1) :
    l.foldl (fun d kv => dictInsert kv.1 kv.2 d) (hd :: base) =
      hd :: l.foldl (fun d kv => dictInsert kv.1 kv.2 d) base := by
  induction l generalizing base with
  | nil => rfl
  | cons kv rest ih =>
    simp only [List.foldl_cons]
    rw [dictInsert_cons_ne kv.2 base (fun e => h kv (List.mem_cons_self _ _) e.symm)]
    exact ih (dictInsert kv.1 kv.2 base) (fun x hx => h x (List.mem_cons_of_mem _ hx))

/-- Folding `dictInsert` over the dict's own entries, starting from a dict
with the same key list, reproduces the entries. -/
theorem foldl_dictInsert_overwrite {α : Type} :
    ∀ (l base : List (String × α)), base.map Prod.fst = l.map Prod.fst →
      (l.map Prod.fst).Nodup →
      l.foldl (fun d kv => dictInsert kv.1 kv.2 d) base = l := by
  intro l
  induction l with
  | nil =>
    intro base h _
    exact List.map_eq_nil.mp h
  | cons kv rest ih =>
    intro base h hnd
    cases base with
    | nil => simp at h
    | cons b0 base2 =>
      simp only [List.map_cons, List.cons.injEq] at h
      simp only [List.map_cons, List.nodup_cons] at hnd
      simp only [List.foldl_cons]
      have hb0 : dictInsert kv.1 kv.2 (b0 :: base2) = kv :: base2 := by
        have : b0.1 = kv.1 := h.1
        simp [dictInsert, this]
      rw [hb0, foldl_dictInsert_cons rest kv base2
        (fun x hx e => hnd.1 (e ▸ List.mem_map.mpr ⟨x, hx, rfl⟩)),
        ih base2 h.2 hnd.2]

/-- On an allocation whose selection dict is keyed like the template dict,
`copy` is the identity. -/
theorem copy_eq (t : PlayerTalentTree)
    (hkeys : t.selection_by_node_id.map Prod.fst =
      (templateDict t.tree_template).map Prod.fst) :
    t.copy = t := by
  have hnd : (t.selection_by_node_id.map Prod.fst).Nodup := by
    rw [hkeys]
    exact templateDict_keys_nodup t.tree_template
  have hbase : (emptySelectionsDict t.tree_template).map Prod.fst =
      t.selection_by_node_id.map Prod.fst := by
    rw [emptySelectionsDict_keys, hkeys]
  have hfold := foldl_dictInsert_overwrite t.selection_by_node_id
    (emptySelectionsDict t.tree_template) hbase hnd
  have hform : t.copy =
      { t with
        selection_by_node_id :=
          t.selection_by_node_id.foldl (fun d kv => dictInsert kv.1 kv.2 d)
            (emptySelectionsDict t.tree_template) } := rfl
  rw [hform, hfold]

/-! ## Characterizing `skill_all_nodes` -/

theorem skill_fold_aux (ex : List (String × Nat)) :
    ∀ (rest pre : List (String × PlayerTalentNodeSelection)) (t : PlayerTalentTree),
      t.selection_by_node_id = pre ++ rest →
      (((pre ++ rest).map Prod.fst).Nodup) →
      List.foldl
        (fun acc kv =>
          let res := skillChoices kv.1 ex 0 kv.2.node_reference.choices
            kv.2.points_spent_by_choice_index
          { acc with
            selection_by_node_id :=
              dictInsert kv.1 { kv.2 with points_spent_by_choice_index := res.1 }
                acc.selection_by_node_id
            spent_points_by_gate :=
              gateAdd acc.spent_points_by_gate kv.2.node_reference.gate_id res.2 })
        t rest =
      { t with
        selection_by_node_id := pre ++ rest.map (skillUpd ex)
        spent_points_by_gate :=
          List.foldl (gateStep ex) t.spent_points_by_gate rest } := by
  intro rest
  induction rest with
  | nil =>
    intro pre t ht _
    simp [← ht]
  | cons kv rest2 ih =>
    rcases kv with ⟨k, v⟩
    intro pre t ht hnd
    have hnd2 : (pre.map Prod.fst ++ List.map Prod.fst ((k, v) :: rest2)).Nodup := by
      simpa [List.map_append] using hnd
    have hknotpre : ∀ kv2 ∈ pre, kv2.1 ≠ k := by
      intro kv2 hkv2 he
      exact List.disjoint_of_nodup_append hnd2
        (List.mem_map.mpr ⟨kv2, hkv2, he⟩) (by simp)
    simp only [List.foldl_cons]
    set v2 : PlayerTalentNodeSelection :=
      { v with
        points_spent_by_choice_index :=
          (skillChoices k ex 0 v.node_reference.choices
            v.points_spent_by_choice_index).1 } with hv2
    have hins : dictInsert k v2 t.selection_by_node_id = pre ++ (k, v2) :: rest2 := by
      rw [ht]
      exact dictInsert_append pre rest2 v2 v hknotpre
    have hstep := ih (pre ++ [(k, v2)])
      { t with
        selection_by_node_id := pre ++ (k, v2) :: rest2
        spent_points_by_gate :=
          gateAdd t.spent_points_by_gate v.node_reference.gate_id
            (skillChoices k ex 0 v.node_reference.choices
              v.points_spent_by_choice_index).2 }
      (by simp) (by simpa using hnd)
    simp only [hins]
    rw [hstep]
    simp [skillUpd, gateStep]

/-- `skill_all_nodes`, characterized: each selection's points vector is
rewritten by `skillChoices` and the gate map accumulates one `gateAdd` per
selection. -/
theorem skill_all_nodes_eq (t : PlayerTalentTree) (ex : List (String × Nat))
    (hnd : (t.selection_by_node_id.map Prod.fst).Nodup) :
    t.skill_all_nodes ex =
      { t with
        selection_by_node_id := t.selection_by_node_id.map (skillUpd ex)
        spent_points_by_gate :=
          List.foldl (gateStep ex) t.spent_points_by_gate
            t.selection_by_node_id } := by
  have h := skill_fold_aux ex t.selection_by_node_id [] t rfl (by simpa using hnd)
  rw [List.nil_append] at h
  exact h

theorem gateGet_foldl_gateStep (ex : List (String × Nat)) (g2 : Nat) :
    ∀ (l : List (String × PlayerTalentNodeSelection)) (d : List (Nat × Int)),
      gateGet (List.foldl (gateStep ex) d l) g2 =
        gateGet d g2 + (sumSkillAdds ex g2 l : Int) := by
  intro l
  induction l with
  | nil => intro d; simp [sumSkillAdds]
  | cons kv rest ih =>
    intro d
    simp only [List.foldl_cons, ih, sumSkillAdds, gateStep, gateGet_gateAdd]
    by_cases h : g2 = kv.2.node_reference.gate_id
    · subst h
      simp
      push_cast
      omega
    · have h2 : ¬ kv.2.node_reference.gate_id = g2 := fun e => h e.symm
      simp [h, h2]

theorem sumPointsInGate_map_skillUpd (ex : List (String × Nat)) (g : Nat)
    (l : List (String × PlayerTalentNodeSelection))
    (h : ∀ kv ∈ l,
      ((skillChoices kv.1 ex 0 kv.2.node_reference.choices
        kv.2.points_spent_by_choice_index).1).sum =
      (skillChoices kv.1 ex 0 kv.2.node_reference.choices
        kv.2.points_spent_by_choice_index).2) :
    sumPointsInGate g (l.map (skillUpd ex)) = sumSkillAdds ex g l := by
  induction l with
  | nil => rfl
  | cons kv rest ih =>
    have hkv := h kv (List.mem_cons_self _ _)
    have ihr := ih (fun x hx => h x (List.mem_cons_of_mem _ hx))
    simp only [List.map_cons, sumPointsInGate, sumSkillAdds, skillUpd, ihr]
    by_cases hg : kv.2.node_reference.gate_id = g <;> simp [hg, hkv]

theorem skillChoices_zero_sum (nid : String) (ex : List (String × Nat)) :
    ∀ (i : Nat) (cs : List ChoiceNodeTalent),
      ((skillChoices nid ex i cs (cs.map fun _ => 0)).1).sum =
        (skillChoices nid ex i cs (cs.map fun _ => 0)).2 := by
  intro i cs
  induction cs generalizing i with
  | nil => rfl
  | cons c cs2 ih =>
    have ih2 := ih (i + 1)
    by_cases h : (nid, i) ∈ ex
    · simp only [List.map_cons, skillChoices, if_pos h, List.sum_cons]
      omega
    · simp only [List.map_cons, skillChoices, if_neg h, List.sum_cons]
      omega

theorem sumPointsInGate_eq_zero (g : Nat)
    (l : List (String × PlayerTalentNodeSelection))
    (h : ∀ kv ∈ l, kv.2.points_spent_by_choice_index.sum = 0) :
    sumPointsInGate g l = 0 := by
  induction l with
  | nil => rfl
  | cons kv rest ih =>
    have hkv := h kv (List.mem_cons_self _ _)
    have ihr := ih (fun x hx => h x (List.mem_cons_of_mem _ hx))
    simp [sumPointsInGate, hkv, ihr]

/-- Freshly constructed allocations satisfy the gate invariant. -/
theorem gateInv_init (tmpl : TalentTree) (m : Nat) :
    gateInv (PlayerTalentTree.init tmpl m) := by
  intro g
  have h : sumPointsInGate g (emptySelectionsDict tmpl) = 0 := by
    apply sumPointsInGate_eq_zero
    intro kv hkv
    rw [(emptySelectionsDict_mem hkv).2.2]
    simp
  simp [PlayerTalentTree.init, gateGet, h]

/-- `skill_all_nodes` establishes the gate invariant on a freshly
constructed (all-zero) allocation. -/
theorem gateInv_skill_init (tmpl : TalentTree) (m : Nat)
    (ex : List (String × Nat)) :
    gateInv ((PlayerTalentTree.init tmpl m).skill_all_nodes ex) := by
  have hnd : ((PlayerTalentTree.init tmpl m).selection_by_node_id.map Prod.fst).Nodup := by
    show ((emptySelectionsDict tmpl).map Prod.fst).Nodup
    rw [emptySelectionsDict_keys]
    exact templateDict_keys_nodup tmpl
  rw [skill_all_nodes_eq _ _ hnd]
  intro g
  have hpoint : ∀ kv ∈ (PlayerTalentTree.init tmpl m).selection_by_node_id,
      ((skillChoices kv.1 ex 0 kv.2.node_reference.choices
        kv.2.points_spent_by_choice_index).1).sum =
      (skillChoices kv.1 ex 0 kv.2.node_reference.choices
        kv.2.points_spent_by_choice_index).2 := by
    intro kv hkv
    have hkv2 : kv ∈ emptySelectionsDict tmpl := hkv
    have hz := (emptySelectionsDict_mem hkv2).2.2
    rw [hz]
    exact skillChoices_zero_sum kv.1 ex 0 kv.2.node_reference.choices
  show gateGet (List.foldl (gateStep ex) (PlayerTalentTree.init tmpl m).spent_points_by_gate
      (PlayerTalentTree.init tmpl m).selection_by_node_id) g =
    (sumPointsInGate g ((PlayerTalentTree.init tmpl m).selection_by_node_id.map (skillUpd ex)) : Int)
  rw [gateGet_foldl_gateStep, sumPointsInGate_map_skillUpd ex g _ hpoint]
  simp [PlayerTalentTree.init, gateGet]

/-! ## Inversion of `decrement_node` -/

theorem remove_point_inv {s s2 : PlayerTalentNodeSelection} {ci : Nat}
    (h : s.remove_point_from_choice ci = some s2) :
    ∃ p, ci < s.node_reference.choices.length ∧
      s.points_spent_by_choice_index.get? ci = some p ∧ 0 < p ∧
      s2 = { s with
        points_spent_by_choice_index :=
          s.points_spent_by_choice_index.set ci (p - 1) } := by
  by_cases hge : ci ≥ s.node_reference.choices.length
  · simp [PlayerTalentNodeSelection.remove_point_from_choice, hge] at h
  · simp only [PlayerTalentNodeSelection.remove_point_from_choice, if_neg hge] at h
    cases hm : s.points_spent_by_choice_index.get? ci with
    | none => rw [hm] at h; simp at h
    | some p =>
      rw [hm] at h
      by_cases hp : p ≤ 0
      · simp [hp] at h
      · simp only [if_neg hp, Option.some.injEq] at h
        exact ⟨p, by omega, rfl, by omega, h.symm⟩

theorem decrement_node_inv {t t2 : PlayerTalentTree} {nid : String} {ci : Nat}
    (h : t.decrement_node nid ci = some t2) :
    ∃ sel sel2, dictGet t.selection_by_node_id nid = some sel ∧
      sel.remove_point_from_choice ci = some sel2 ∧
      t2 = { t with
        selection_by_node_id := dictInsert nid sel2 t.selection_by_node_id
        spent_points_by_gate :=
          gateAdd t.spent_points_by_gate sel.node_reference.gate_id (-1) } := by
  cases hsel : dictGet t.selection_by_node_id nid with
  | none => simp [PlayerTalentTree.decrement_node, hsel] at h
  | some sel =>
    cases hrem : sel.remove_point_from_choice ci with
    | none => simp [PlayerTalentTree.decrement_node, hsel, hrem] at h
    | some sel2 =>
      simp only [PlayerTalentTree.decrement_node, hsel, hrem,
        Option.some.injEq] at h
      exact ⟨sel, sel2, rfl, hrem, h.symm⟩

/-- A successful `decrement_node` preserves the gate invariant. -/
theorem decrement_gateInv {t t2 : PlayerTalentTree} {nid : String} {ci : Nat}
    (hinv : gateInv t) (h : t.decrement_node nid ci = some t2) : gateInv t2 := by
  rcases decrement_node_inv h with ⟨sel, sel2, hsel, hrem, ht2⟩
  rcases remove_point_inv hrem with ⟨p, hlen, hp, hpos, hsel2⟩
  rcases dictGet_split hsel with ⟨pre, suf, hsplit, hpre⟩
  have hins : dictInsert nid sel2 t.selection_by_node_id = pre ++ (nid, sel2) :: suf := by
    rw [hsplit]
    exact dictInsert_append pre suf sel2 sel hpre
  have hsum : sel2.points_spent_by_choice_index.sum + 1 =
      sel.points_spent_by_choice_index.sum := by
    rw [hsel2]
    have := sum_set_eq sel.points_spent_by_choice_index ci (p - 1) p hp
    simp at this ⊢
    omega
  have hgate : sel2.node_reference = sel.node_reference := by rw [hsel2]
  intro g
  have hold := hinv g
  rw [hsplit, sumPointsInGate_append] at hold
  rw [ht2]
  show gateGet (gateAdd t.spent_points_by_gate sel.node_reference.gate_id (-1)) g =
    (sumPointsInGate g (dictInsert nid sel2 t.selection_by_node_id) : Int)
  rw [hins, gateGet_gateAdd, sumPointsInGate_append]
  simp only [sumPointsInGate, hgate] at hold ⊢
  by_cases hg : g = sel.node_reference.gate_id
  · have hg2 : sel.node_reference.gate_id = g := hg.symm
    rw [if_pos hg, if_pos hg2]
    rw [if_pos hg2] at hold
    omega
  · have hg2 : ¬ sel.node_reference.gate_id = g := fun e => hg e.symm
    rw [if_neg hg, if_neg hg2]
    rw [if_neg hg2] at hold
    omega

/-! ## Claim C3 (corrected)

Construction, `decrement_node` (under its precondition) and `copy` do
preserve the gate invariant, but `skill_all_nodes` does not preserve it on
an arbitrary invariant-satisfying allocation: it assigns
`points[i] = choice.max_points` and then adds the full `max_points` to the
gate counter, so any points already present are double-counted.  The
program only ever calls it on a freshly constructed all-zero allocation,
where it establishes the invariant. -/

/-- **C3, counterexample.**  `w3t` is reachable (it is `w4tree` after one
legal decrement) and satisfies the gate invariant, yet applying the public
operation `skill_all_nodes` to it breaks the invariant. -/
theorem claim_C3_counterexample :
    w4tree.decrement_node "a" 0 = some w3t ∧ gateInv w3t ∧
    ¬ gateInv (w3t.skill_all_nodes []) := by
  refine ⟨by decide, ?_, ?_⟩
  · intro g
    by_cases h : (0 : Nat) = g
    · subst h
      decide
    · simp [w3t, gateGet, sumPointsInGate, h]
  · intro hinv
    have h0 := hinv 0
    revert h0
    decide

/-- **C3, amended.**  Construction establishes the gate invariant;
`skill_all_nodes` establishes it on a freshly constructed (all-zero)
allocation, which is the only way the program uses it; `decrement_node`
under its precondition (the target choice holds a point, i.e. the call
succeeds) preserves it; and `copy` preserves it for every allocation whose
selection dict is keyed by the template (as all program allocations are).
Consequently the invariant holds at all times in the program. -/
theorem claim_C3_amended :
    (∀ (tmpl : TalentTree) (m : Nat), gateInv (PlayerTalentTree.init tmpl m)) ∧
    (∀ (tmpl : TalentTree) (m : Nat) (ex : List (String × Nat)),
      gateInv ((PlayerTalentTree.init tmpl m).skill_all_nodes ex)) ∧
    (∀ (t t2 : PlayerTalentTree) (nid : String) (ci : Nat),
      gateInv t → t.decrement_node nid ci = some t2 → gateInv t2) ∧
    (∀ t : PlayerTalentTree, gateInv t →
      t.selection_by_node_id.map Prod.fst =
        (templateDict t.tree_template).map Prod.fst →
      gateInv t.copy) := by
  refine ⟨gateInv_init, gateInv_skill_init, fun _ _ _ _ => decrement_gateInv, ?_⟩
  intro t hinv hkeys
  rw [copy_eq t hkeys]
  exact hinv

/-- Witness for C3 at concrete allocations. -/
theorem claim_C3_witness :
    gateInv (PlayerTalentTree.init w4tmpl 5) ∧
    gateInv ((PlayerTalentTree.init w4tmpl 5).skill_all_nodes []) ∧
    (gateInv w4tree ∧ w4tree.decrement_node "a" 0 = some w3t ∧ gateInv w3t) ∧
    (w4tree.selection_by_node_id.map Prod.fst =
      (templateDict w4tree.tree_template).map Prod.fst ∧ gateInv w4tree.copy) := by
  have hg : gateInv w4tree := claim_C3_amended.2.1 w4tmpl 5 []
  refine ⟨claim_C3_amended.1 w4tmpl 5, claim_C3_amended.2.1 w4tmpl 5 [],
    ⟨hg, by decide, ?_⟩, ⟨by decide, ?_⟩⟩
  · exact claim_C3_amended.2.2.1 w4tree w3t "a" 0 hg (by decide)
  · exact claim_C3_amended.2.2.2 w4tree hg (by decide)

/-! ## Claim C5: `find_nodes_to_decrement` -/

theorem dictGet_of_mem_nodup {α : Type} {d : List (String × α)} {kv : String × α}
    (h : kv ∈ d) (hnd : (d.map Prod.fst).Nodup) : dictGet d kv.1 = some kv.2 := by
  induction d with
  | nil => simp at h
  | cons hd rest ih =>
    simp only [List.map_cons, List.nodup_cons] at hnd
    rcases List.mem_cons.mp h with h2 | h2
    · subst h2
      simp [dictGet]
    · have hne : ¬ hd.1 = kv.1 := by
        intro e
        exact hnd.1 (e ▸ List.mem_map.mpr ⟨kv, h2, rfl⟩)
      simp [dictGet, hne, ih h2 hnd.2]

theorem collectChoices_eq (t : PlayerTalentTree) (nid : String)
    {sel : PlayerTalentNodeSelection} (hwf : t.wf)
    (hsel : dictGet t.selection_by_node_id nid = some sel) (l : List Nat) :
    collectChoices t nid l = some (l.filterMap
      (fun ci =>
        if t.can_node_be_decremented nid ci = some true then some (nid, ci)
        else none)) := by
  induction l with
  | nil => rfl
  | cons ci rest ih =>
    rcases Option.isSome_iff_exists.mp (canDec_isSome hwf hsel ci) with ⟨b, hb⟩
    cases b <;> simp [collectChoices, hb, ih]

theorem collectNodes_eq (t : PlayerTalentTree)
    (shc : String → List Nat → List Nat) (hwf : t.wf) (l : List String)
    (hmem : ∀ nid ∈ l, (dictGet t.selection_by_node_id nid).isSome) :
    collectNodes t shc l = some (l.flatMap (foundPairs t shc)) := by
  induction l with
  | nil => rfl
  | cons nid rest ih =>
    rcases Option.isSome_iff_exists.mp (hmem nid (List.mem_cons_self _ _)) with
      ⟨sel, hsel⟩
    have hc := collectChoices_eq t nid hwf hsel
      (shc nid sel.get_choice_indices_with_points)
    have ihr := ih (fun x hx => hmem x (List.mem_cons_of_mem _ hx))
    simp [collectNodes, hsel, hc, ihr, foundPairs]

theorem canDec_true_inv {t : PlayerTalentTree} {nid : String} {ci : Nat}
    (h : t.can_node_be_decremented nid ci = some true) :
    ∃ sel, dictGet t.selection_by_node_id nid = some sel ∧
      ci ∈ sel.get_choice_indices_with_points := by
  cases hsel : dictGet t.selection_by_node_id nid with
  | none => simp [PlayerTalentTree.can_node_be_decremented, hsel] at h
  | some sel =>
    refine ⟨sel, rfl, ?_⟩
    by_cases hmem : ci ∈ sel.get_choice_indices_with_points
    · exact hmem
    · by_cases hholds : sel.holds_talent_points
      · simp [PlayerTalentTree.can_node_be_decremented, hsel, hholds, hmem] at h
      · simp [PlayerTalentTree.can_node_be_decremented, hsel, hholds] at h

theorem mem_violating_iff (t : PlayerTalentTree)
    (hnd : (t.selection_by_node_id.map Prod.fst).Nodup) {n : String}
    {sel : PlayerTalentNodeSelection}
    (hsel : dictGet t.selection_by_node_id n = some sel) :
    n ∈ t.get_node_ids_with_violated_single_choice ↔
      sel.violates_single_choice_rule = true := by
  constructor
  · intro h
    rcases List.mem_map.mp h with ⟨kv, hkv, he⟩
    rcases List.mem_filter.mp hkv with ⟨hkvmem, hviol⟩
    have hget := dictGet_of_mem_nodup hkvmem hnd
    rw [he, hsel] at hget
    cases hget
    exact hviol
  · intro h
    exact List.mem_map.mpr
      ⟨(n, sel), List.mem_filter.mpr ⟨mem_of_dictGet hsel, h⟩, rfl⟩

theorem indicesWithPoints_ge {x i : Nat} {ps : List Nat}
    (h : x ∈ PlayerTalentNodeSelection.indicesWithPoints i ps) : i ≤ x := by
  induction ps generalizing i with
  | nil => simp [PlayerTalentNodeSelection.indicesWithPoints] at h
  | cons p rest ih =>
    by_cases hp : p > 0
    · simp only [PlayerTalentNodeSelection.indicesWithPoints, if_pos hp,
        List.mem_cons] at h
      rcases h with h | h
      · omega
      · have := ih h
        omega
    · simp only [PlayerTalentNodeSelection.indicesWithPoints, if_neg hp] at h
      have := ih h
      omega

theorem indicesWithPoints_nodup (i : Nat) (ps : List Nat) :
    (PlayerTalentNodeSelection.indicesWithPoints i ps).Nodup := by
  induction ps generalizing i with
  | nil => simp [PlayerTalentNodeSelection.indicesWithPoints]
  | cons p rest ih =>
    by_cases hp : p > 0
    · simp only [PlayerTalentNodeSelection.indicesWithPoints, if_pos hp,
        List.nodup_cons]
      refine ⟨fun hmem => ?_, ih (i + 1)⟩
      have := indicesWithPoints_ge hmem
      omega
    · simp only [PlayerTalentNodeSelection.indicesWithPoints, if_neg hp]
      exact ih (i + 1)

theorem foundPairs_mem {t : PlayerTalentTree}
    {shc : String → List Nat → List Nat} {nid : String} {p : String × Nat}
    (h : p ∈ foundPairs t shc nid) :
    p.1 = nid ∧ t.can_node_be_decremented nid p.2 = some true := by
  unfold foundPairs at h
  cases hsel : dictGet t.selection_by_node_id nid with
  | none => rw [hsel] at h; simp at h
  | some sel =>
    rw [hsel] at h
    rcases List.mem_filterMap.mp h with ⟨ci, _, hci⟩
    by_cases hc : t.can_node_be_decremented nid ci = some true
    · rw [if_pos hc] at hci
      cases hci
      exact ⟨rfl, hc⟩
    · rw [if_neg hc] at hci
      cases hci

theorem foundPairs_nodup (t : PlayerTalentTree)
    (shc : String → List Nat → List Nat) (nid : String)
    (hshc : ∀ n l, (shc n l).Perm l) : (foundPairs t shc nid).Nodup := by
  unfold foundPairs
  cases hsel : dictGet t.selection_by_node_id nid with
  | none => simp
  | some sel =>
    apply List.Nodup.filterMap
    · intro a a2 b hb hb2
      by_cases hc : t.can_node_be_decremented nid a = some true
      · rw [if_pos hc] at hb
        by_cases hc2 : t.can_node_be_decremented nid a2 = some true
        · rw [if_pos hc2] at hb2
          simp only [Option.mem_def, Option.some.injEq] at hb hb2
          rw [← hb2] at hb
          exact congrArg Prod.snd hb
        · rw [if_neg hc2] at hb2
          simp at hb2
      · rw [if_neg hc] at hb
        simp at hb
    · exact (hshc nid sel.get_choice_indices_with_points).nodup_iff.mpr
        (indicesWithPoints_nodup 0 sel.points_spent_by_choice_index)

/-- **C5.** For every well-formed allocation and any permutation-producing
shuffles, `find_nodes_to_decrement` returns exactly the set of
(node id, choice index) pairs on which `can_node_be_decremented` returns
true, each pair at most once, and in the returned list every pair of a
node violating the single-choice rule precedes every pair of a
non-violating node. -/
theorem claim_C5_find_nodes (t : PlayerTalentTree)
    (shuffleNodeIds : List String → List String)
    (shuffleChoices : String → List Nat → List Nat) (hwf : t.wf)
    (hshn : ∀ l, (shuffleNodeIds l).Perm l)
    (hshc : ∀ n l, (shuffleChoices n l).Perm l) :
    ∃ L, t.find_nodes_to_decrement shuffleNodeIds shuffleChoices = some L ∧
      (∀ p : String × Nat, p ∈ L ↔
        t.can_node_be_decremented p.1 p.2 = some true) ∧
      L.Nodup ∧
      ∃ L1 L2, L = L1 ++ L2 ∧
        (∀ p ∈ L1, ∃ s, dictGet t.selection_by_node_id p.1 = some s ∧
          s.violates_single_choice_rule = true) ∧
        (∀ p ∈ L2, ∃ s, dictGet t.selection_by_node_id p.1 = some s ∧
          s.violates_single_choice_rule = false) := by
  have hnd : (t.selection_by_node_id.map Prod.fst).Nodup := by
    rw [hwf.2.1]
    exact templateDict_keys_nodup t.tree_template
  have hviol_sub : ∀ n ∈ t.get_node_ids_with_violated_single_choice,
      n ∈ t.selection_by_node_id.map Prod.fst := by
    intro n hn
    rcases List.mem_map.mp hn with ⟨kv, hkv, he⟩
    exact List.mem_map.mpr ⟨kv, (List.mem_filter.mp hkv).1, he⟩
  have hcand_mem : ∀ nid ∈ t.get_node_ids_with_violated_single_choice ++
      (shuffleNodeIds (t.selection_by_node_id.map Prod.fst)).filter
        (fun nid => nid ∉ t.get_node_ids_with_violated_single_choice),
      (dictGet t.selection_by_node_id nid).isSome := by
    intro nid hnid
    rcases List.mem_append.mp hnid with h | h
    · exact dictGet_isSome_of_mem (hviol_sub nid h)
    · exact dictGet_isSome_of_mem
        ((hshn (t.selection_by_node_id.map Prod.fst)).mem_iff.mp
          (List.mem_filter.mp h).1)
  have hfind : t.find_nodes_to_decrement shuffleNodeIds shuffleChoices =
      some ((t.get_node_ids_with_violated_single_choice ++
        (shuffleNodeIds (t.selection_by_node_id.map Prod.fst)).filter
          (fun nid => nid ∉ t.get_node_ids_with_violated_single_choice)).flatMap
        (foundPairs t shuffleChoices)) := by
    unfold PlayerTalentTree.find_nodes_to_decrement
    exact collectNodes_eq t shuffleChoices hwf _ hcand_mem
  refine ⟨_, hfind, ?_, ?_, ?_⟩
  · intro p
    constructor
    · intro hp
      rcases List.mem_flatMap.mp hp with ⟨n, _, hpn⟩
      have := foundPairs_mem hpn
      rw [← this.1] at this
      exact this.2
    · intro hp
      rcases canDec_true_inv hp with ⟨sel, hsel, hci⟩
      have hnmem : p.1 ∈ t.get_node_ids_with_violated_single_choice ++
          (shuffleNodeIds (t.selection_by_node_id.map Prod.fst)).filter
            (fun nid => nid ∉ t.get_node_ids_with_violated_single_choice) := by
        by_cases hv : sel.violates_single_choice_rule
        · exact List.mem_append.mpr
            (Or.inl ((mem_violating_iff t hnd hsel).mpr hv))
        · refine List.mem_append.mpr (Or.inr (List.mem_filter.mpr ⟨?_, ?_⟩))
          · exact (hshn (t.selection_by_node_id.map Prod.fst)).mem_iff.mpr
              (List.mem_map.mpr ⟨(p.1, sel), mem_of_dictGet hsel, rfl⟩)
          · simpa using fun hmem => hv ((mem_violating_iff t hnd hsel).mp hmem)
      refine List.mem_flatMap.mpr ⟨p.1, hnmem, ?_⟩
      unfold foundPairs
      rw [hsel]
      refine List.mem_filterMap.mpr ⟨p.2, ?_, ?_⟩
      · exact (hshc p.1 sel.get_choice_indices_with_points).mem_iff.mpr hci
      · rw [if_pos hp]
  · have hcand_nd : (t.get_node_ids_with_violated_single_choice ++
        (shuffleNodeIds (t.selection_by_node_id.map Prod.fst)).filter
          (fun nid => nid ∉ t.get_node_ids_with_violated_single_choice)).Nodup := by
      refine List.Nodup.append ?_ ?_ ?_
      · exact List.Nodup.sublist
          (List.Sublist.map Prod.fst (List.filter_sublist _)) hnd
      · exact List.Nodup.filter _ ((hshn _).nodup_iff.mpr hnd)
      · intro a ha ha2
        have h2 := (List.mem_filter.mp ha2).2
        simp only [decide_not, Bool.not_eq_true', decide_eq_false_iff_not] at h2
        exact h2 ha
    refine List.nodup_flatMap.mpr ⟨?_, ?_⟩
    · intro n _
      exact foundPairs_nodup t shuffleChoices n hshc
    · refine List.Pairwise.imp ?_ hcand_nd
      intro a b hab p hpa hpb
      exact hab (((foundPairs_mem hpa).1.symm).trans (foundPairs_mem hpb).1)
  · refine ⟨(t.get_node_ids_with_violated_single_choice).flatMap
        (foundPairs t shuffleChoices),
      ((shuffleNodeIds (t.selection_by_node_id.map Prod.fst)).filter
        (fun nid => nid ∉ t.get_node_ids_with_violated_single_choice)).flatMap
        (foundPairs t shuffleChoices),
      List.flatMap_append _ _ _, ?_, ?_⟩
    · intro p hp
      rcases List.mem_flatMap.mp hp with ⟨n, hn, hpn⟩
      have hfp := foundPairs_mem hpn
      rw [← hfp.1] at hn
      rcases canDec_true_inv (hfp.1 ▸ hfp.2) with ⟨sel, hsel, _⟩
      exact ⟨sel, hsel, (mem_violating_iff t hnd hsel).mp hn⟩
    · intro p hp
      rcases List.mem_flatMap.mp hp with ⟨n, hn, hpn⟩
      have hfp := foundPairs_mem hpn
      rcases canDec_true_inv (hfp.1 ▸ hfp.2) with ⟨sel, hsel, _⟩
      refine ⟨sel, hsel, ?_⟩
      by_cases hv : sel.violates_single_choice_rule
      · have : p.1 ∈ t.get_node_ids_with_violated_single_choice :=
          (mem_violating_iff t hnd hsel).mpr hv
        rw [← hfp.1] at hn
        exact absurd this (by simpa using (List.mem_filter.mp hn).2)
      · simpa using hv

/-- Witness for C5 at a concrete allocation with identity shuffles. -/
theorem claim_C5_witness :
    w2tree.wf ∧
    (∀ l : List String, ((fun l : List String => l) l).Perm l) ∧
    (∀ (n : String) (l : List Nat),
      ((fun (_ : String) (l : List Nat) => l) n l).Perm l) ∧
    (∃ L, w2tree.find_nodes_to_decrement (fun l => l) (fun _ l => l) = some L ∧
      (∀ p : String × Nat, p ∈ L ↔
        w2tree.can_node_be_decremented p.1 p.2 = some true) ∧
      L.Nodup ∧
      ∃ L1 L2, L = L1 ++ L2 ∧
        (∀ p ∈ L1, ∃ s, dictGet w2tree.selection_by_node_id p.1 = some s ∧
          s.violates_single_choice_rule = true) ∧
        (∀ p ∈ L2, ∃ s, dictGet w2tree.selection_by_node_id p.1 = some s ∧
          s.violates_single_choice_rule = false)) :=
  ⟨by decide, fun l => List.Perm.refl l, fun _ l => List.Perm.refl l,
    claim_C5_find_nodes w2tree (fun l => l) (fun _ l => l) (by decide)
      (fun l => List.Perm.refl l) (fun _ l => List.Perm.refl l)⟩

/-! ## Claim C1: gate support -/

/-- The gate loop rejects as soon as some later gate `H` above the node's
gate has a threshold at least the running total accumulated before `H`. -/
theorem gateLoop_false_of_bad {G : Nat} {spent : List (Nat × Int)} {H : Gate} :
    ∀ (gs : List Gate) (r : Int), H ∈ gs → H.gate_id > G →
      (H.points_required_below : Int) ≥ r + prefixSpentSum spent gs H →
      gateLoop G spent gs r = false := by
  intro gs
  induction gs with
  | nil => intro r h; simp at h
  | cons g rest ih =>
    intro r hmem hgt hthr
    by_cases hgH : g = H
    · subst hgH
      rw [prefixSpentSum, if_pos rfl] at hthr
      simp only [gateLoop]
      rw [if_pos ⟨hgt, by omega⟩]
    · rw [prefixSpentSum, if_neg hgH] at hthr
      have hmem2 : H ∈ rest := by
        rcases List.mem_cons.mp hmem with h | h
        · exact absurd h.symm hgH
        · exact h
      simp only [gateLoop]
      by_cases hif : g.gate_id > G ∧ (g.points_required_below : Int) ≥ r
      · rw [if_pos hif]
      · rw [if_neg hif]
        exact ih (r + gateGet spent g.gate_id) hmem2 hgt (by omega)

/-- On a strictly sorted gate list the running total before `H` is the sum
of the stored counters of the gates with smaller id. -/
theorem prefixSpentSum_sorted (spent : List (Nat × Int)) {H : Gate} :
    ∀ (gs : List Gate),
      gs.Pairwise (fun a b => a.gate_id < b.gate_id) → H ∈ gs →
      prefixSpentSum spent gs H = gatesBelowSum spent H.gate_id gs := by
  intro gs
  induction gs with
  | nil => intro _ h; simp at h
  | cons g rest ih =>
    intro hpw hmem
    rw [List.pairwise_cons] at hpw
    by_cases hgH : g = H
    · subst hgH
      have hrest : ∀ (l : List Gate), (∀ b ∈ l, g.gate_id < b.gate_id) →
          gatesBelowSum spent g.gate_id l = 0 := by
        intro l
        induction l with
        | nil => intro _; rfl
        | cons g2 rest2 ih2 =>
          intro hall
          have h1 : ¬ g2.gate_id < g.gate_id := by
            have := hall g2 (List.mem_cons_self _ _)
            omega
          rw [gatesBelowSum, if_neg h1,
            ih2 (fun b hb => hall b (List.mem_cons_of_mem _ hb))]
          omega
      rw [prefixSpentSum, if_pos rfl, gatesBelowSum, if_neg (lt_irrefl _),
        hrest rest hpw.1]
      omega
    · have hmem2 : H ∈ rest := by
        rcases List.mem_cons.mp hmem with h | h
        · exact absurd h.symm hgH
        · exact h
      have hlt : g.gate_id < H.gate_id := hpw.1 H hmem2
      rw [prefixSpentSum, if_neg hgH, gatesBelowSum, if_pos hlt,
        ih hpw.2 hmem2]

/-- Under the gate invariant the stored counters below `h` sum to the
per-allocation point sums of those gates. -/
theorem gatesBelowSum_eq_nat {t : PlayerTalentTree} (hinv : gateInv t) (h : Nat) :
    ∀ gs : List Gate,
      gatesBelowSum t.spent_points_by_gate h gs =
        (gatesBelowNat h t.selection_by_node_id gs : Int) := by
  intro gs
  induction gs with
  | nil => rfl
  | cons g rest ih =>
    rw [gatesBelowSum, gatesBelowNat, ih]
    by_cases hlt : g.gate_id < h
    · rw [if_pos hlt, if_pos hlt, hinv g.gate_id]
      push_cast
      ring
    · rw [if_neg hlt, if_neg hlt]
      simp

theorem pickTerm_zero (h x v : Nat) :
    ∀ gs : List Gate, x ∉ gs.map Gate.gate_id → pickTerm h x v gs = 0 := by
  intro gs
  induction gs with
  | nil => intro _; rfl
  | cons g rest ih =>
    intro hx
    simp only [List.map_cons, List.mem_cons] at hx
    push_neg at hx
    rw [pickTerm, ih hx.2]
    have : ¬ (g.gate_id < h ∧ x = g.gate_id) := fun hc => hx.1 hc.2
    rw [if_neg this]

theorem pickTerm_eq (h x v : Nat) :
    ∀ gs : List Gate, (gs.map Gate.gate_id).Nodup → x ∈ gs.map Gate.gate_id →
      pickTerm h x v gs = if x < h then v else 0 := by
  intro gs
  induction gs with
  | nil => intro _ hx; simp at hx
  | cons g rest ih =>
    intro hnd hx
    simp only [List.map_cons, List.nodup_cons] at hnd
    by_cases hxg : x = g.gate_id
    · have hrest : x ∉ rest.map Gate.gate_id := by
        rw [hxg]
        exact hnd.1
      rw [pickTerm, pickTerm_zero h x v rest hrest]
      by_cases hlt : x < h
      · have hglt : g.gate_id < h := by
          rw [← hxg]
          exact hlt
        rw [if_pos ⟨hglt, hxg⟩, if_pos hlt]
        omega
      · have hglt : ¬ (g.gate_id < h ∧ x = g.gate_id) := by
          intro hc
          rw [hxg] at hlt
          exact hlt hc.1
        rw [if_neg hglt, if_neg hlt]
    · have hxrest : x ∈ rest.map Gate.gate_id := by
        rcases List.mem_cons.mp hx with hc | hc
        · exact absurd hc hxg
        · exact hc
      rw [pickTerm, ih hnd.2 hxrest, if_neg (fun hc => hxg hc.2)]
      omega

theorem gatesBelowNat_nil (h : Nat) :
    ∀ gs : List Gate, gatesBelowNat h [] gs = 0 := by
  intro gs
  induction gs with
  | nil => rfl
  | cons g rest ih =>
    rw [gatesBelowNat, ih]
    simp [sumPointsInGate]

theorem gatesBelowNat_cons (h : Nat) (kv : String × PlayerTalentNodeSelection)
    (rest : List (String × PlayerTalentNodeSelection)) :
    ∀ gs : List Gate,
      gatesBelowNat h (kv :: rest) gs =
        pickTerm h kv.2.node_reference.gate_id
          kv.2.points_spent_by_choice_index.sum gs + gatesBelowNat h rest gs := by
  intro gs
  induction gs with
  | nil => rfl
  | cons g gs2 ih =>
    rw [gatesBelowNat, gatesBelowNat, pickTerm, ih, sumPointsInGate]
    by_cases hlt : g.gate_id < h
    · rw [if_pos hlt, if_pos hlt]
      by_cases he : kv.2.node_reference.gate_id = g.gate_id
      · rw [if_pos he, if_pos ⟨hlt, he⟩]
        omega
      · rw [if_neg he, if_neg (fun hc => he hc.2)]
        omega
    · rw [if_neg hlt, if_neg hlt, if_neg (fun hc => hlt hc.1)]
      omega

/-- With unique gate ids covering all node gate ids, summing the per-gate
point sums over the gates below `h` counts every selection below `h`
exactly once. -/
theorem gatesBelowNat_eq_below {gs : List Gate}
    (hnd : (gs.map Gate.gate_id).Nodup) :
    ∀ sels : List (String × PlayerTalentNodeSelection),
      (∀ kv ∈ sels, kv.2.node_reference.gate_id ∈ gs.map Gate.gate_id) →
      ∀ h : Nat, gatesBelowNat h sels gs = sumPointsBelow h sels := by
  intro sels
  induction sels with
  | nil => intro _ h; rw [gatesBelowNat_nil, sumPointsBelow]
  | cons kv rest ih =>
    intro hcover h
    rw [gatesBelowNat_cons, sumPointsBelow,
      ih (fun x hx => hcover x (List.mem_cons_of_mem _ hx)) h,
      pickTerm_eq h _ _ gs hnd (hcover kv (List.mem_cons_self _ _))]

/-- **C1.** For every well-formed allocation satisfying the gate invariant,
over a template whose gates are strictly sorted by id and cover every
node's gate id: if some gate `H` has id strictly greater than the gate id
`G` of node `N` and its threshold `points_required_below` is at least the
cumulative points committed to nodes in gates with id strictly below `H`,
then `can_node_be_decremented(N, c)` returns false for every choice index
`c`; consequently no removal accepted by the checker is ever taken from a
node below such a gate. -/
theorem claim_C1_gate_support (t : PlayerTalentTree) (nid : String) (ci : Nat)
    (sel : PlayerTalentNodeSelection) (H : Gate) (hwf : t.wf) (hinv : gateInv t)
    (hsorted : t.tree_template.gate_info.gates.Pairwise
      (fun a b => a.gate_id < b.gate_id))
    (hcover : ∀ kv ∈ t.selection_by_node_id,
      kv.2.node_reference.gate_id ∈
        t.tree_template.gate_info.gates.map Gate.gate_id)
    (hsel : dictGet t.selection_by_node_id nid = some sel)
    (hH : H ∈ t.tree_template.gate_info.gates)
    (hgt : H.gate_id > sel.node_reference.gate_id)
    (hthr : (H.points_required_below : Int) ≥
      (sumPointsBelow H.gate_id t.selection_by_node_id : Int)) :
    t.can_node_be_decremented nid ci = some false := by
  have hndgate : (t.tree_template.gate_info.gates.map Gate.gate_id).Nodup := by
    have hpw := List.pairwise_map.mpr hsorted
    exact hpw.imp (fun hab => Nat.ne_of_lt hab)
  have hsortEq : sortedGates t = t.tree_template.gate_info.gates := by
    unfold sortedGates
    exact List.Sorted.insertionSort_eq (hsorted.imp (fun hab => le_of_lt hab))
  have hglfalse : gateLoop sel.node_reference.gate_id t.spent_points_by_gate
      (sortedGates t) 0 = false := by
    rw [hsortEq]
    apply gateLoop_false_of_bad _ 0 hH hgt
    rw [prefixSpentSum_sorted _ _ hsorted hH,
      gatesBelowSum_eq_nat hinv H.gate_id _,
      gatesBelowNat_eq_below hndgate _ hcover H.gate_id]
    omega
  by_cases hholds : sel.holds_talent_points
  · by_cases hci : ci ∈ sel.get_choice_indices_with_points
    · have href := (hwf.2.2 (nid, sel) (mem_of_dictGet hsel)).1
      have hnode := templateDict_mem href
      have hch : ∀ c ∈ sel.node_reference.child_node_ids,
          (dictGet t.selection_by_node_id c).isSome := fun c hc =>
        wf_sel_isSome hwf ((hwf.1 sel.node_reference hnode.1).1 c hc)
      rcases Option.isSome_iff_exists.mp
        (@dependencyCheck_isSome t hwf nid sel.violates_single_choice_rule
          sel.node_reference.child_node_ids hch) with ⟨b, hb⟩
      cases b
      · simp [PlayerTalentTree.can_node_be_decremented, hsel, hholds, hci,
          href, hb]
      · simp [PlayerTalentTree.can_node_be_decremented, hsel, hholds, hci,
          href, hb, hglfalse]
    · simp [PlayerTalentTree.can_node_be_decremented, hsel, hholds, hci]
  · simp [PlayerTalentTree.can_node_be_decremented, hsel, hholds]

/-- Witness for C1 at a concrete allocation: gate 1 requires 5 points below
it, only 2 are committed below, so node `a` (gate 0) cannot be
decremented. -/
theorem claim_C1_witness :
    w1tree.wf ∧ gateInv w1tree ∧
    w1tree.tree_template.gate_info.gates.Pairwise
      (fun a b => a.gate_id < b.gate_id) ∧
    (∀ kv ∈ w1tree.selection_by_node_id,
      kv.2.node_reference.gate_id ∈
        w1tree.tree_template.gate_info.gates.map Gate.gate_id) ∧
    dictGet w1tree.selection_by_node_id "a" = some w1sel ∧
    Gate.mk 1 5 ∈ w1tree.tree_template.gate_info.gates ∧
    (Gate.mk 1 5).gate_id > w1sel.node_reference.gate_id ∧
    ((Gate.mk 1 5).points_required_below : Int) ≥
      (sumPointsBelow (Gate.mk 1 5).gate_id w1tree.selection_by_node_id : Int) ∧
    w1tree.can_node_be_decremented "a" 0 = some false :=
  ⟨by decide, gateInv_skill_init w1tmpl 6 [], by decide, by decide, by decide,
    by decide, by decide, by decide,
    claim_C1_gate_support w1tree "a" 0 w1sel (Gate.mk 1 5) (by decide)
      (gateInv_skill_init w1tmpl 6 []) (by decide) (by decide) (by decide)
      (by decide) (by decide) (by decide)⟩

/-! ## Claim C10: memo-table safety of the beam loop -/

theorem dictGet_isSome_dictInsert {α : Type} {m : List (String × α)}
    {k : String} (s : String) (v : α) (h : (dictGet m k).isSome) :
    (dictGet (dictInsert s v m) k).isSome := by
  by_cases he : s = k
  · subst he
    rw [dictGet_dictInsert_self]
    rfl
  · rw [dictGet_dictInsert_ne _ _ he]
    exact h

/-- `expandPairs` can only fail with `treeOpFailed`. -/
theorem expandPairs_err (oracle : String → Option ℚ) (tree : PlayerTalentTree) :
    ∀ (pairs : List (String × Nat)) (acc : IterAcc) (e : SearchError)
      (acc2 : IterAcc), expandPairs oracle tree pairs acc = .err e acc2 →
      e = .treeOpFailed := by
  intro pairs
  induction pairs with
  | nil => intro acc e acc2 h; simp [expandPairs] at h
  | cons p rest ih =>
    rcases p with ⟨nid, ci⟩
    intro acc e acc2 h
    rw [expandPairs] at h
    cases hdec : (tree.copy).decrement_node nid ci with
    | none =>
      simp only [hdec] at h
      cases h
      rfl
    | some new_tree =>
      simp only [hdec] at h
      by_cases hmem : (dictGet acc.memo new_tree.to_talent_string).isSome
      · rw [if_pos hmem] at h
        exact ih _ _ _ h
      · rw [if_neg hmem] at h
        cases horole : oracle new_tree.to_talent_string with
        | none =>
          simp only [horole] at h
          exact ih _ _ _ h
        | some d =>
          simp only [horole] at h
          exact ih _ _ _ h

/-- `expandPairs` only grows the memo and keeps every candidate's string
memoized. -/
theorem expandPairs_ok_memo (oracle : String → Option ℚ)
    (tree : PlayerTalentTree) :
    ∀ (pairs : List (String × Nat)) (acc acc2 : IterAcc),
      expandPairs oracle tree pairs acc = .ok acc2 →
      (∀ c ∈ acc.candidates, (dictGet acc.memo c.1.to_talent_string).isSome) →
      (∀ k, (dictGet acc.memo k).isSome → (dictGet acc2.memo k).isSome) ∧
      (∀ c ∈ acc2.candidates, (dictGet acc2.memo c.1.to_talent_string).isSome) := by
  intro pairs
  induction pairs with
  | nil =>
    intro acc acc2 h hcand
    cases h
    exact ⟨fun _ hk => hk, hcand⟩
  | cons p rest ih =>
    rcases p with ⟨nid, ci⟩
    intro acc acc2 h hcand
    rw [expandPairs] at h
    cases hdec : (tree.copy).decrement_node nid ci with
    | none =>
      simp only [hdec] at h
      cases h
    | some new_tree =>
      simp only [hdec] at h
      by_cases hmem : (dictGet acc.memo new_tree.to_talent_string).isSome
      · rw [if_pos hmem] at h
        exact ih _ _ h hcand
      · rw [if_neg hmem] at h
        cases horole : oracle new_tree.to_talent_string with
        | none =>
          simp only [horole] at h
          have hres := ih
            { acc with calls := acc.calls ++ [new_tree.to_talent_string] } _ h
            (fun c hc => hcand c hc)
          exact hres
        | some d =>
          simp only [horole] at h
          have hstep := ih _ _ h ?_
          · exact ⟨fun k hk => hstep.1 k
              (dictGet_isSome_dictInsert _ _ hk), hstep.2⟩
          · intro c hc
            rcases List.mem_append.mp hc with h2 | h2
            · exact dictGet_isSome_dictInsert _ _ (hcand c h2)
            · simp only [List.mem_singleton] at h2
              subst h2
              rw [dictGet_dictInsert_self]
              rfl

/-- `processTree` cannot fail with `memoKeyMissing` when a budget-valid
tree's string is memoized, and it preserves the memo facts. -/
theorem processTree_A (cfg : BeamSearchConfig) (oracle : String → Option ℚ)
    (sh : BeamShuffles) (acc : IterAcc) (tree : PlayerTalentTree)
    (htree : tree.get_total_points_spent ≤ tree.get_total_points_available →
      (dictGet acc.memo tree.to_talent_string).isSome)
    (hcand : ∀ c ∈ acc.candidates, (dictGet acc.memo c.1.to_talent_string).isSome) :
    (∀ e acc2, processTree cfg oracle sh acc tree = .err e acc2 →
      e = .treeOpFailed) ∧
    (∀ acc2, processTree cfg oracle sh acc tree = .ok acc2 →
      (∀ k, (dictGet acc.memo k).isSome → (dictGet acc2.memo k).isSome) ∧
      (∀ c ∈ acc2.candidates, (dictGet acc2.memo c.1.to_talent_string).isSome)) := by
  unfold processTree
  by_cases hvalid : tree.get_total_points_spent ≤ tree.get_total_points_available
  · rw [if_pos hvalid]
    rcases Option.isSome_iff_exists.mp (htree hvalid) with ⟨d, hd⟩
    rw [hd]
    constructor
    · intro e acc2 h
      cases h
    · intro acc2 h
      cases h
      refine ⟨fun _ hk => hk, ?_⟩
      intro c hc
      rcases List.mem_append.mp hc with h2 | h2
      · exact hcand c h2
      · simp only [List.mem_singleton] at h2
        subst h2
        exact htree hvalid
  · rw [if_neg hvalid]
    cases hfind : tree.find_nodes_to_decrement sh.shuffleNodeIds sh.shuffleChoices with
    | none =>
      constructor
      · intro e acc2 h
        cases h
        rfl
      · intro acc2 h
        cases h
    | some pairs =>
      constructor
      · intro e acc2 h
        exact expandPairs_err oracle tree _ acc e acc2 h
      · intro acc2 h
        exact expandPairs_ok_memo oracle tree _ acc acc2 h hcand

/-- `processBeam` cannot fail with `memoKeyMissing` when every valid beam
member's string is memoized. -/
theorem processBeam_A (cfg : BeamSearchConfig) (oracle : String → Option ℚ)
    (sh : BeamShuffles) :
    ∀ (beam : List PlayerTalentTree) (acc : IterAcc),
      (∀ tree ∈ beam, tree.get_total_points_spent ≤
        tree.get_total_points_available →
        (dictGet acc.memo tree.to_talent_string).isSome) →
      (∀ c ∈ acc.candidates, (dictGet acc.memo c.1.to_talent_string).isSome) →
      (∀ e acc2, processBeam cfg oracle sh beam acc = .err e acc2 →
        e = .treeOpFailed) ∧
      (∀ acc2, processBeam cfg oracle sh beam acc = .ok acc2 →
        (∀ k, (dictGet acc.memo k).isSome → (dictGet acc2.memo k).isSome) ∧
        (∀ c ∈ acc2.candidates, (dictGet acc2.memo c.1.to_talent_string).isSome)) := by
  intro beam
  induction beam with
  | nil =>
    intro acc _ hcand
    constructor
    · intro e acc2 h
      cases h
    · intro acc2 h
      cases h
      exact ⟨fun _ hk => hk, hcand⟩
  | cons tree rest ih =>
    intro acc hbeam hcand
    have hone := processTree_A cfg oracle sh acc tree
      (hbeam tree (List.mem_cons_self _ _)) hcand
    constructor
    · intro e acc2 h
      rw [processBeam] at h
      cases hstep : processTree cfg oracle sh acc tree with
      | err e2 acc3 =>
        rw [hstep] at h
        cases h
        exact hone.1 _ _ hstep
      | ok acc3 =>
        rw [hstep] at h
        have hm := hone.2 acc3 hstep
        exact (ih acc3
          (fun t ht hv => hm.1 _ (hbeam t (List.mem_cons_of_mem _ ht) hv))
          hm.2).1 e acc2 h
    · intro acc2 h
      rw [processBeam] at h
      cases hstep : processTree cfg oracle sh acc tree with
      | err e2 acc3 => rw [hstep] at h; cases h
      | ok acc3 =>
        rw [hstep] at h
        have hm := hone.2 acc3 hstep
        have hrest := (ih acc3
          (fun t ht hv => hm.1 _ (hbeam t (List.mem_cons_of_mem _ ht) hv))
          hm.2).2 acc2 h
        exact ⟨fun k hk => hrest.1 k (hm.1 k hk), hrest.2⟩

/-- One loop iteration never raises `memoKeyMissing` from a state whose
beam is memoized, and it hands the invariant to the next state. -/
theorem beamStep_A (cfg : BeamSearchConfig) (oracle : String → Option ℚ)
    (sh : BeamShuffles) (st : SearchState) (hinv : memoInv st) :
    (∀ st2, beamStep cfg oracle sh st ≠ .err .memoKeyMissing st2) ∧
    (∀ st2, beamStep cfg oracle sh st = .next st2 ∨
      beamStep cfg oracle sh st = .stop st2 → memoInv st2) := by
  have hpb := processBeam_A cfg oracle sh st.beam
    ⟨st.dps_by_talent_str, [], st.best_dps, st.best_tree_so_far, false,
      st.oracle_calls⟩
    (fun t ht _ => hinv t ht) (by intro c hc; simp at hc)
  unfold beamStep
  cases hrun : processBeam cfg oracle sh st.beam
      ⟨st.dps_by_talent_str, [], st.best_dps, st.best_tree_so_far, false,
        st.oracle_calls⟩ with
  | err e acc =>
    have he := hpb.1 e acc hrun
    constructor
    · intro st2 h
      simp only [hrun] at h
      cases h
      cases he
    · intro st2 h
      simp only [hrun] at h
      rcases h with h | h <;> cases h
  | ok acc =>
    have hmono := hpb.2 acc hrun
    have hnextInv : ∀ tree, tree ∈ (((acc.candidates.insertionSort
        (fun a b => b.2 ≤ a.2)).take cfg.beam_width).map Prod.fst) →
        (dictGet acc.memo tree.to_talent_string).isSome := by
      intro tree ht
      rcases List.mem_map.mp ht with ⟨c, hc, he⟩
      have hc2 : c ∈ acc.candidates.insertionSort (fun a b => b.2 ≤ a.2) :=
        List.take_subset _ _ hc
      rw [List.mem_insertionSort] at hc2
      exact he ▸ hmono.2 c hc2
    constructor
    · intro st2 h
      simp only [hrun] at h
      by_cases hnew : acc.has_new_candidates = false
      · rw [if_pos hnew] at h
        cases h
      · rw [if_neg hnew] at h
        by_cases hempty : (((acc.candidates.insertionSort
            (fun a b => b.2 ≤ a.2)).take cfg.beam_width).map Prod.fst).isEmpty
        · rw [if_pos hempty] at h
          cases h
        · rw [if_neg hempty] at h
          cases h
    · intro st2 h
      simp only [hrun] at h
      by_cases hnew : acc.has_new_candidates = false
      · rw [if_pos hnew] at h
        rcases h with h | h
        · cases h
        · cases h
          intro tree ht
          exact hmono.1 _ (hinv tree ht)
      · rw [if_neg hnew] at h
        by_cases hempty : (((acc.candidates.insertionSort
            (fun a b => b.2 ≤ a.2)).take cfg.beam_width).map Prod.fst).isEmpty
        · rw [if_pos hempty] at h
          rcases h with h | h
          · cases h
          · cases h
            intro tree ht
            exact hnextInv tree ht
        · rw [if_neg hempty] at h
          rcases h with h | h
          · cases h
            intro tree ht
            exact hnextInv tree ht
          · cases h

/-- The loop never fails with `memoKeyMissing` from a memoized state. -/
theorem beamLoop_A (cfg : BeamSearchConfig) (oracle : String → Option ℚ)
    (sh : BeamShuffles) :
    ∀ (fuel : Nat) (st : SearchState), memoInv st →
      ∀ st2, beamLoop cfg oracle sh fuel st ≠ .failed .memoKeyMissing st2 := by
  intro fuel
  induction fuel with
  | zero =>
    intro st _ st2 h
    cases h
  | succ f ih =>
    intro st hinv st2 h
    rw [beamLoop] at h
    by_cases hempty : st.beam.isEmpty
    · rw [if_pos hempty] at h
      cases h
    · rw [if_neg hempty] at h
      cases hstep : beamStep cfg oracle sh st with
      | stop st3 =>
        rw [hstep] at h
        cases h
      | err e st3 =>
        rw [hstep] at h
        injection h with h1 h2
        subst h1
        exact (beamStep_A cfg oracle sh st hinv).1 st3 hstep
      | next st3 =>
        rw [hstep] at h
        exact ih st3
          ((beamStep_A cfg oracle sh st hinv).2 st3 (Or.inl hstep)) st2 h

/-- **C10.** At the start of every loop iteration the canonical talent
string of every beam member is a key of the memo table: the invariant holds
in the initial state and the memo lookup performed for budget-valid beam
members never fails — the whole search never ends with the
`memoKeyMissing` error. -/
theorem claim_C10_memo_safety :
    (∀ (tmpl : TalentTree) (m : Nat) (blocked : List (String × Nat)) (d0 : ℚ),
      memoInv (initialState tmpl m blocked d0)) ∧
    (∀ (cfg : BeamSearchConfig) (oracle : String → Option ℚ)
      (sh : BeamShuffles) (fuel : Nat) (tmpl : TalentTree) (m : Nat)
      (blocked : List (String × Nat)) (st2 : SearchState),
      beam_search_optimal_talents cfg oracle sh fuel tmpl m blocked ≠
        .failed .memoKeyMissing st2) := by
  have hinit : ∀ (tmpl : TalentTree) (m : Nat) (blocked : List (String × Nat))
      (d0 : ℚ), memoInv (initialState tmpl m blocked d0) := by
    intro tmpl m blocked d0 tree ht
    simp only [initialState, List.mem_singleton] at ht
    subst ht
    simp [dictGet]
  refine ⟨hinit, ?_⟩
  intro cfg oracle sh fuel tmpl m blocked st2 h
  unfold beam_search_optimal_talents at h
  cases horacle : oracle (seedTree tmpl m blocked).to_talent_string with
  | none =>
    simp only [horacle] at h
    cases h
  | some d0 =>
    simp only [horacle] at h
    exact beamLoop_A cfg oracle sh fuel (initialState tmpl m blocked d0)
      (hinit tmpl m blocked d0) st2 h

/-! ## Claim C6: termination bound -/

/-- A successful decrement keeps the template, the budget and the key list,
and lowers the total by exactly one. -/
theorem decrement_props {t t2 : PlayerTalentTree} {nid : String} {ci : Nat}
    (h : t.decrement_node nid ci = some t2) :
    t2.tree_template = t.tree_template ∧
    t2.max_points_available = t.max_points_available ∧
    t2.selection_by_node_id.map Prod.fst =
      t.selection_by_node_id.map Prod.fst ∧
    t2.get_total_points_spent + 1 = t.get_total_points_spent := by
  rcases decrement_node_inv h with ⟨sel, sel2, hsel, hrem, ht2⟩
  rcases remove_point_inv hrem with ⟨p, hlen, hp, hpos, hsel2⟩
  rcases dictGet_split hsel with ⟨pre, suf, hsplit, hpre⟩
  have hins : dictInsert nid sel2 t.selection_by_node_id =
      pre ++ (nid, sel2) :: suf := by
    rw [hsplit]
    exact dictInsert_append pre suf sel2 sel hpre
  subst ht2
  refine ⟨rfl, rfl, ?_, ?_⟩
  · show (dictInsert nid sel2 t.selection_by_node_id).map Prod.fst =
      t.selection_by_node_id.map Prod.fst
    rw [hins, hsplit]
    simp
  · have hsum : sel2.points_spent_by_choice_index.sum + 1 =
        sel.points_spent_by_choice_index.sum := by
      rw [hsel2]
      have := sum_set_eq sel.points_spent_by_choice_index ci (p - 1) p hp
      simp at this ⊢
      omega
    unfold PlayerTalentTree.get_total_points_spent
    simp only [hins]
    rw [hsplit]
    simp [List.map_append, List.sum_append]
    omega

theorem expandPairs_B (oracle : String → Option ℚ) (tree : PlayerTalentTree)
    (B j : Nat)
    (hkeys : tree.selection_by_node_id.map Prod.fst =
      (templateDict tree.tree_template).map Prod.fst)
    (hm : tree.max_points_available = B)
    (htot : tree.get_total_points_spent ≤ B + j + 1) :
    ∀ (pairs : List (String × Nat)) (acc acc2 : IterAcc),
      expandPairs oracle tree pairs acc = .ok acc2 →
      (∀ c ∈ acc.candidates, beamTreeInv B j c.1) →
      ∀ c ∈ acc2.candidates, beamTreeInv B j c.1 := by
  intro pairs
  induction pairs with
  | nil =>
    intro acc acc2 h hcand
    cases h
    exact hcand
  | cons pr rest ih =>
    rcases pr with ⟨nid, ci⟩
    intro acc acc2 h hcand
    rw [expandPairs] at h
    cases hdec : (tree.copy).decrement_node nid ci with
    | none =>
      simp only [hdec] at h
      cases h
    | some new_tree =>
      simp only [hdec] at h
      rw [copy_eq tree hkeys] at hdec
      have hprops := decrement_props hdec
      have hnew : beamTreeInv B j new_tree := by
        refine ⟨?_, hprops.2.1.trans hm, ?_⟩
        · rw [hprops.2.2.1, hprops.1, hkeys]
        · have := hprops.2.2.2
          omega
      by_cases hmem : (dictGet acc.memo new_tree.to_talent_string).isSome
      · rw [if_pos hmem] at h
        exact ih _ _ h hcand
      · rw [if_neg hmem] at h
        cases horole : oracle new_tree.to_talent_string with
        | none =>
          simp only [horole] at h
          have hres := ih
            { acc with calls := acc.calls ++ [new_tree.to_talent_string] } _ h
            (fun c hc => hcand c hc)
          exact hres
        | some d =>
          simp only [horole] at h
          refine ih _ _ h ?_
          intro c hc
          rcases List.mem_append.mp hc with h2 | h2
          · exact hcand c h2
          · simp only [List.mem_singleton] at h2
            subst h2
            exact hnew

theorem processTree_B (cfg : BeamSearchConfig) (oracle : String → Option ℚ)
    (sh : BeamShuffles) (acc : IterAcc) (tree : PlayerTalentTree) (B j : Nat)
    (htree : beamTreeInv B (j + 1) tree)
    (hcand : ∀ c ∈ acc.candidates, beamTreeInv B j c.1) :
    ∀ acc2, processTree cfg oracle sh acc tree = .ok acc2 →
      ∀ c ∈ acc2.candidates, beamTreeInv B j c.1 := by
  intro acc2 h
  unfold processTree at h
  by_cases hvalid : tree.get_total_points_spent ≤ tree.get_total_points_available
  · rw [if_pos hvalid] at h
    cases hd : dictGet acc.memo tree.to_talent_string with
    | none => rw [hd] at h; cases h
    | some d =>
      rw [hd] at h
      cases h
      intro c hc
      rcases List.mem_append.mp hc with h2 | h2
      · exact hcand c h2
      · simp only [List.mem_singleton] at h2
        subst h2
        refine ⟨htree.1, htree.2.1, ?_⟩
        show tree.get_total_points_spent ≤ B + j
        have h3 : tree.get_total_points_spent ≤ B := by
          rw [← htree.2.1]
          exact hvalid
        omega
  · rw [if_neg hvalid] at h
    cases hfind : tree.find_nodes_to_decrement sh.shuffleNodeIds
        sh.shuffleChoices with
    | none => rw [hfind] at h; cases h
    | some pairs =>
      rw [hfind] at h
      exact expandPairs_B oracle tree B j htree.1 htree.2.1
        (by have := htree.2.2; omega) _ acc acc2 h hcand

theorem processBeam_B (cfg : BeamSearchConfig) (oracle : String → Option ℚ)
    (sh : BeamShuffles) (B j : Nat) :
    ∀ (beam : List PlayerTalentTree) (acc acc2 : IterAcc),
      (∀ tree ∈ beam, beamTreeInv B (j + 1) tree) →
      (∀ c ∈ acc.candidates, beamTreeInv B j c.1) →
      processBeam cfg oracle sh beam acc = .ok acc2 →
      ∀ c ∈ acc2.candidates, beamTreeInv B j c.1 := by
  intro beam
  induction beam with
  | nil =>
    intro acc acc2 _ hcand h
    cases h
    exact hcand
  | cons tree rest ih =>
    intro acc acc2 hbeam hcand h
    rw [processBeam] at h
    cases hstep : processTree cfg oracle sh acc tree with
    | err e acc3 => rw [hstep] at h; cases h
    | ok acc3 =>
      rw [hstep] at h
      exact ih acc3 acc2 (fun t ht => hbeam t (List.mem_cons_of_mem _ ht))
        (processTree_B cfg oracle sh acc tree B j
          (hbeam tree (List.mem_cons_self _ _)) hcand acc3 hstep) h

/-- With every beam member budget-valid, an iteration produces no new
candidates. -/
theorem processBeam_allvalid (cfg : BeamSearchConfig)
    (oracle : String → Option ℚ) (sh : BeamShuffles) :
    ∀ (beam : List PlayerTalentTree) (acc acc2 : IterAcc),
      (∀ tree ∈ beam, tree.get_total_points_spent ≤
        tree.get_total_points_available) →
      processBeam cfg oracle sh beam acc = .ok acc2 →
      acc2.has_new_candidates = acc.has_new_candidates := by
  intro beam
  induction beam with
  | nil =>
    intro acc acc2 _ h
    cases h
    rfl
  | cons tree rest ih =>
    intro acc acc2 hbeam h
    rw [processBeam] at h
    cases hstep : processTree cfg oracle sh acc tree with
    | err e acc3 => rw [hstep] at h; cases h
    | ok acc3 =>
      simp only [hstep] at h
      have hvalid := hbeam tree (List.mem_cons_self _ _)
      unfold processTree at hstep
      rw [if_pos hvalid] at hstep
      cases hd : dictGet acc.memo tree.to_talent_string with
      | none => rw [hd] at hstep; cases hstep
      | some d =>
        rw [hd] at hstep
        cases hstep
        have hres := ih
          { memo := acc.memo, candidates := acc.candidates ++ [(tree, d)],
            best_dps := if d > acc.best_dps then d else acc.best_dps,
            best_tree := if d > acc.best_dps then some tree else acc.best_tree,
            has_new_candidates := acc.has_new_candidates, calls := acc.calls }
          acc2 (fun t ht => hbeam t (List.mem_cons_of_mem _ ht)) h
        exact hres

/-- A continuing iteration lowers the bound `k` on every beam member. -/
theorem beamStep_B (cfg : BeamSearchConfig) (oracle : String → Option ℚ)
    (sh : BeamShuffles) (B j : Nat) (st st2 : SearchState)
    (hinv : ∀ tree ∈ st.beam, beamTreeInv B (j + 1) tree)
    (h : beamStep cfg oracle sh st = .next st2) :
    ∀ tree ∈ st2.beam, beamTreeInv B j tree := by
  unfold beamStep at h
  cases hrun : processBeam cfg oracle sh st.beam
      ⟨st.dps_by_talent_str, [], st.best_dps, st.best_tree_so_far, false,
        st.oracle_calls⟩ with
  | err e acc =>
    simp only [hrun] at h
    cases h
  | ok acc =>
    simp only [hrun] at h
    have hcand := processBeam_B cfg oracle sh B j st.beam _ acc hinv
      (by intro c hc; simp at hc) hrun
    by_cases hnew : acc.has_new_candidates = false
    · rw [if_pos hnew] at h
      cases h
    · rw [if_neg hnew] at h
      by_cases hempty : (((acc.candidates.insertionSort
          (fun a b => b.2 ≤ a.2)).take cfg.beam_width).map Prod.fst).isEmpty
      · rw [if_pos hempty] at h
        cases h
      · rw [if_neg hempty] at h
        cases h
        intro tree ht
        rcases List.mem_map.mp ht with ⟨c, hc, he⟩
        have hc2 : c ∈ acc.candidates.insertionSort (fun a b => b.2 ≤ a.2) :=
          List.take_subset _ _ hc
        rw [List.mem_insertionSort] at hc2
        exact he ▸ hcand c hc2

/-- From an all-valid beam the iteration never continues. -/
theorem beamStep_allvalid (cfg : BeamSearchConfig) (oracle : String → Option ℚ)
    (sh : BeamShuffles) (st : SearchState)
    (hvalid : ∀ tree ∈ st.beam, tree.get_total_points_spent ≤
      tree.get_total_points_available) :
    ∀ st2, beamStep cfg oracle sh st ≠ .next st2 := by
  intro st2 h
  unfold beamStep at h
  cases hrun : processBeam cfg oracle sh st.beam
      ⟨st.dps_by_talent_str, [], st.best_dps, st.best_tree_so_far, false,
        st.oracle_calls⟩ with
  | err e acc =>
    simp only [hrun] at h
    cases h
  | ok acc =>
    simp only [hrun] at h
    have hnew := processBeam_allvalid cfg oracle sh st.beam _ acc hvalid hrun
    rw [if_pos hnew] at h
    cases h

/-- Fuel `k + 1` suffices when every beam member spends at most `B + k`
points of its budget `B`. -/
theorem beamLoop_B (cfg : BeamSearchConfig) (oracle : String → Option ℚ)
    (sh : BeamShuffles) (B : Nat) :
    ∀ (k fuel : Nat) (st : SearchState),
      (∀ tree ∈ st.beam, beamTreeInv B k tree) → k + 1 ≤ fuel →
      ∀ st2, beamLoop cfg oracle sh fuel st ≠ .fuelOut st2 := by
  intro k
  induction k with
  | zero =>
    intro fuel st hinv hfuel st2 h
    cases fuel with
    | zero => omega
    | succ f =>
      rw [beamLoop] at h
      by_cases hempty : st.beam.isEmpty
      · rw [if_pos hempty] at h
        cases h
      · rw [if_neg hempty] at h
        cases hstep : beamStep cfg oracle sh st with
        | stop st3 => rw [hstep] at h; cases h
        | err e st3 => rw [hstep] at h; cases h
        | next st3 =>
          refine absurd hstep (beamStep_allvalid cfg oracle sh st ?_ st3)
          intro tree ht
          have := hinv tree ht
          show tree.get_total_points_spent ≤ tree.max_points_available
          rw [this.2.1]
          have h3 := this.2.2
          omega
  | succ j ih =>
    intro fuel st hinv hfuel st2 h
    cases fuel with
    | zero => omega
    | succ f =>
      rw [beamLoop] at h
      by_cases hempty : st.beam.isEmpty
      · rw [if_pos hempty] at h
        cases h
      · rw [if_neg hempty] at h
        cases hstep : beamStep cfg oracle sh st with
        | stop st3 => rw [hstep] at h; cases h
        | err e st3 => rw [hstep] at h; cases h
        | next st3 =>
          rw [hstep] at h
          exact ih f st3 (beamStep_B cfg oracle sh B j st st3 hinv hstep)
            (by omega) st2 h

theorem seedTree_keys (tmpl : TalentTree) (m : Nat)
    (blocked : List (String × Nat)) :
    (seedTree tmpl m blocked).tree_template = tmpl ∧
    (seedTree tmpl m blocked).max_points_available = m ∧
    (seedTree tmpl m blocked).selection_by_node_id.map Prod.fst =
      (templateDict tmpl).map Prod.fst := by
  have hnd : ((PlayerTalentTree.init tmpl m).selection_by_node_id.map
      Prod.fst).Nodup := by
    show ((emptySelectionsDict tmpl).map Prod.fst).Nodup
    rw [emptySelectionsDict_keys]
    exact templateDict_keys_nodup tmpl
  unfold seedTree
  rw [skill_all_nodes_eq _ _ hnd]
  refine ⟨rfl, rfl, ?_⟩
  show ((PlayerTalentTree.init tmpl m).selection_by_node_id.map
    (skillUpd blocked)).map Prod.fst = (templateDict tmpl).map Prod.fst
  rw [List.map_map]
  have hcomp : (Prod.fst ∘ skillUpd blocked) =
      (Prod.fst : String × PlayerTalentNodeSelection → String) :=
    funext (fun kv => rfl)
  rw [hcomp]
  show ((emptySelectionsDict tmpl).map Prod.fst) = (templateDict tmpl).map Prod.fst
  exact emptySelectionsDict_keys tmpl

/-- **C6.** For every template, budget, block list, oracle behaviour,
configuration and shuffles, the while loop of
`beam_search_optimal_talents` executes at most
`initial_total_spent - budget + 1` iterations: with exactly that much fuel
the search never runs out of fuel, so it always terminates. -/
theorem claim_C6_termination (cfg : BeamSearchConfig)
    (oracle : String → Option ℚ) (sh : BeamShuffles) (tmpl : TalentTree)
    (m : Nat) (blocked : List (String × Nat)) :
    ∀ st2, beam_search_optimal_talents cfg oracle sh
      ((seedTree tmpl m blocked).get_total_points_spent - m + 1)
      tmpl m blocked ≠ .fuelOut st2 := by
  intro st2 h
  unfold beam_search_optimal_talents at h
  cases horacle : oracle (seedTree tmpl m blocked).to_talent_string with
  | none =>
    simp only [horacle] at h
    cases h
  | some d0 =>
    simp only [horacle] at h
    have hprops := seedTree_keys tmpl m blocked
    refine beamLoop_B cfg oracle sh m
      ((seedTree tmpl m blocked).get_total_points_spent - m) _
      (initialState tmpl m blocked d0) ?_ (by omega) st2 h
    intro tree ht
    simp only [initialState, List.mem_singleton] at ht
    subst ht
    refine ⟨?_, hprops.2.1, ?_⟩
    · rw [hprops.1]
      exact hprops.2.2
    · omega

/-! ## Claim C9: error handling of the search -/

theorem mem_indicesWithPoints_get :
    ∀ {ps : List Nat} {i ci : Nat},
      ci ∈ PlayerTalentNodeSelection.indicesWithPoints i ps →
      ∃ p, ps.get? (ci - i) = some p ∧ 0 < p := by
  intro ps
  induction ps with
  | nil => intro i ci h; simp [PlayerTalentNodeSelection.indicesWithPoints] at h
  | cons p rest ih =>
    intro i ci h
    by_cases hp : p > 0
    · simp only [PlayerTalentNodeSelection.indicesWithPoints, if_pos hp,
        List.mem_cons] at h
      rcases h with h | h
      · subst h
        simp [List.get?]
        omega
      · have hge := indicesWithPoints_ge h
        rcases ih h with ⟨q, hq, hqpos⟩
        refine ⟨q, ?_, hqpos⟩
        have hsub : ci - i = (ci - (i + 1)) + 1 := by omega
        rw [hsub]
        simpa using hq
    · simp only [PlayerTalentNodeSelection.indicesWithPoints, if_neg hp] at h
      have hge := indicesWithPoints_ge h
      rcases ih h with ⟨q, hq, hqpos⟩
      refine ⟨q, ?_, hqpos⟩
      have hsub : ci - i = (ci - (i + 1)) + 1 := by omega
      rw [hsub]
      simpa using hq

/-- A successful decrement preserves allocation well-formedness. -/
theorem decrement_wf {t t2 : PlayerTalentTree} {nid : String} {ci : Nat}
    (hwf : t.wf) (h : t.decrement_node nid ci = some t2) : t2.wf := by
  rcases decrement_node_inv h with ⟨sel, sel2, hsel, hrem, ht2⟩
  rcases remove_point_inv hrem with ⟨p, hlen, hp, hpos, hsel2⟩
  rcases dictGet_split hsel with ⟨pre, suf, hsplit, hpre⟩
  have hins : dictInsert nid sel2 t.selection_by_node_id =
      pre ++ (nid, sel2) :: suf := by
    rw [hsplit]
    exact dictInsert_append pre suf sel2 sel hpre
  subst ht2
  refine ⟨hwf.1, ?_, ?_⟩
  · show (dictInsert nid sel2 t.selection_by_node_id).map Prod.fst = _
    rw [hins]
    have h2 := hwf.2.1
    rw [hsplit] at h2
    simpa using h2
  · intro kv hkv
    show dictGet (templateDict t.tree_template) kv.1 = _ ∧ _
    rw [hins] at hkv
    have hmemt : kv ∈ t.selection_by_node_id ∨ kv = (nid, sel2) := by
      rw [hsplit]
      rcases List.mem_append.mp hkv with h2 | h2
      · exact Or.inl (List.mem_append.mpr (Or.inl h2))
      · rcases List.mem_cons.mp h2 with h3 | h3
        · exact Or.inr h3
        · exact Or.inl (List.mem_append.mpr
            (Or.inr (List.mem_cons_of_mem _ h3)))
    rcases hmemt with h2 | h2
    · exact hwf.2.2 kv h2
    · subst h2
      have horig := hwf.2.2 (nid, sel) (mem_of_dictGet hsel)
      constructor
      · show dictGet (templateDict t.tree_template) nid = some sel2.node_reference
        rw [hsel2]
        exact horig.1
      · rw [hsel2]
        simpa using horig.2

/-- On a well-formed allocation a removal accepted by the checker always
succeeds, and the result is well-formed. -/
theorem decrement_of_canDec_true {t : PlayerTalentTree} {nid : String}
    {ci : Nat} (hwf : t.wf)
    (h : t.can_node_be_decremented nid ci = some true) :
    ∃ t2, t.decrement_node nid ci = some t2 ∧ t2.wf := by
  rcases canDec_true_inv h with ⟨sel, hsel, hci⟩
  rcases mem_indicesWithPoints_get hci with ⟨p, hp, hppos⟩
  simp only [Nat.sub_zero] at hp
  have hlen : ci < sel.node_reference.choices.length := by
    have h2 : sel.points_spent_by_choice_index.length =
        sel.node_reference.choices.length :=
      (hwf.2.2 (nid, sel) (mem_of_dictGet hsel)).2
    have h3 : ci < sel.points_spent_by_choice_index.length :=
      List.get?_eq_some.mp hp |>.1
    omega
  have hdec := decrement_node_eq hsel hlen hp hppos
  exact ⟨_, hdec, decrement_wf hwf hdec⟩

/-- Lookups in two dicts built by parallel folds over the same keys are
related pointwise. -/
theorem parallel_fold_lookup {β α1 α2 : Type} (f : β → String) (g1 : β → α1)
    (g2 : β → α2) (R : α1 → α2 → Prop) (hR : ∀ b, R (g1 b) (g2 b))
    (l : List β) :
    ∀ (d1 : List (String × α1)) (d2 : List (String × α2)),
      (∀ k v1, dictGet d1 k = some v1 → ∃ v2, dictGet d2 k = some v2 ∧ R v1 v2) →
      ∀ k v1,
        dictGet (l.foldl (fun d b => dictInsert (f b) (g1 b) d) d1) k = some v1 →
        ∃ v2,
          dictGet (l.foldl (fun d b => dictInsert (f b) (g2 b) d) d2) k = some v2 ∧
          R v1 v2 := by
  induction l with
  | nil => intro d1 d2 hbase k v1 h; exact hbase k v1 h
  | cons b rest ih =>
    intro d1 d2 hbase k v1 h
    refine ih (dictInsert (f b) (g1 b) d1) (dictInsert (f b) (g2 b) d2)
      ?_ k v1 h
    intro k2 w1 h2
    by_cases he : f b = k2
    · subst he
      rw [dictGet_dictInsert_self] at h2
      cases h2
      rw [dictGet_dictInsert_self]
      exact ⟨g2 b, rfl, hR b⟩
    · rw [dictGet_dictInsert_ne _ _ he] at h2
      rw [dictGet_dictInsert_ne _ _ he]
      exact hbase k2 w1 h2

theorem skillChoices_length (nid : String) (ex : List (String × Nat)) :
    ∀ (cs : List ChoiceNodeTalent) (ps : List Nat) (i : Nat),
      ps.length = cs.length →
      (skillChoices nid ex i cs ps).1.length = cs.length := by
  intro cs
  induction cs with
  | nil =>
    intro ps i h
    cases ps with
    | nil => rfl
    | cons q qs => simp at h
  | cons c cs2 ih =>
    intro ps i h
    cases ps with
    | nil => simp at h
    | cons q qs =>
      simp only [List.length_cons, Nat.succ.injEq] at h
      by_cases hmem : (nid, i) ∈ ex <;>
        simp [skillChoices, hmem, ih qs (i + 1) h]

/-- A fully skilled seed over a well-formed template is well-formed. -/
theorem seedTree_wf (tmpl : TalentTree) (m : Nat)
    (blocked : List (String × Nat)) (htmpl : tmpl.wf) :
    (seedTree tmpl m blocked).wf := by
  have hnd : ((PlayerTalentTree.init tmpl m).selection_by_node_id.map
      Prod.fst).Nodup := by
    show ((emptySelectionsDict tmpl).map Prod.fst).Nodup
    rw [emptySelectionsDict_keys]
    exact templateDict_keys_nodup tmpl
  have hkeys := seedTree_keys tmpl m blocked
  refine ⟨?_, ?_, ?_⟩
  · rw [hkeys.1]
    exact htmpl
  · rw [hkeys.1]
    exact hkeys.2.2
  · intro kv hkv
    have hsel : (seedTree tmpl m blocked).selection_by_node_id =
        (PlayerTalentTree.init tmpl m).selection_by_node_id.map
          (skillUpd blocked) := by
      unfold seedTree
      rw [skill_all_nodes_eq _ _ hnd]
    rw [hsel] at hkv
    rcases List.mem_map.mp hkv with ⟨kv0, hkv0, he⟩
    have hget : dictGet (emptySelectionsDict tmpl) kv0.1 = some kv0.2 :=
      dictGet_of_mem_nodup hkv0 hnd
    have hpar := parallel_fold_lookup
      (fun n : TalentTreeNode => n.node_id)
      (fun n : TalentTreeNode =>
        ({ node_reference := n
           points_spent_by_choice_index := n.choices.map (fun _ => 0) } :
          PlayerTalentNodeSelection))
      (id : TalentTreeNode → TalentTreeNode)
      (fun s n => n = s.node_reference) (fun b => rfl) tmpl.nodes [] []
      (by intro k v1 h2; simp [dictGet] at h2) kv0.1 kv0.2 hget
    rcases hpar with ⟨v2, hv2, hrel⟩
    have hv2t : dictGet (templateDict tmpl) kv0.1 = some v2 := hv2
    have hzero := emptySelectionsDict_mem hkv0
    constructor
    · rw [hkeys.1]
      show dictGet (templateDict tmpl) kv.1 = some kv.2.node_reference
      rw [← he]
      show dictGet (templateDict tmpl) kv0.1 =
        some (skillUpd blocked kv0).2.node_reference
      rw [hv2t, hrel]
      rfl
    · rw [← he]
      show (skillChoices kv0.1 blocked 0 kv0.2.node_reference.choices
        kv0.2.points_spent_by_choice_index).1.length =
        (skillUpd blocked kv0).2.node_reference.choices.length
      rw [skillChoices_length kv0.1 blocked _ _ 0 (by rw [hzero.2.2]; simp)]
      rfl

/-- On a well-formed allocation, with node shuffles producing permutations,
`find_nodes_to_decrement` succeeds and returns only accepted removals. -/
theorem find_nodes_spec (t : PlayerTalentTree)
    (shn : List String → List String) (shc : String → List Nat → List Nat)
    (hwf : t.wf) (hshn : ∀ l, (shn l).Perm l) :
    ∃ L, t.find_nodes_to_decrement shn shc = some L ∧
      ∀ p ∈ L, t.can_node_be_decremented p.1 p.2 = some true := by
  have hviol_sub : ∀ n ∈ t.get_node_ids_with_violated_single_choice,
      n ∈ t.selection_by_node_id.map Prod.fst := by
    intro n hn
    rcases List.mem_map.mp hn with ⟨kv, hkv, he⟩
    exact List.mem_map.mpr ⟨kv, (List.mem_filter.mp hkv).1, he⟩
  have hcand_mem : ∀ nid ∈ t.get_node_ids_with_violated_single_choice ++
      (shn (t.selection_by_node_id.map Prod.fst)).filter
        (fun nid => nid ∉ t.get_node_ids_with_violated_single_choice),
      (dictGet t.selection_by_node_id nid).isSome := by
    intro nid hnid
    rcases List.mem_append.mp hnid with h | h
    · exact dictGet_isSome_of_mem (hviol_sub nid h)
    · exact dictGet_isSome_of_mem
        ((hshn (t.selection_by_node_id.map Prod.fst)).mem_iff.mp
          (List.mem_filter.mp h).1)
  refine ⟨_, collectNodes_eq t shc hwf _ hcand_mem, ?_⟩
  intro p hp
  rcases List.mem_flatMap.mp hp with ⟨n, _, hpn⟩
  have hfp := foundPairs_mem hpn
  rw [← hfp.1] at hfp
  exact hfp.2

/-- `expandPairs` on accepted removals of a well-formed tree never fails and
preserves the iteration invariants. -/
theorem expandPairs_C (oracle : String → Option ℚ) (tree : PlayerTalentTree)
    (hwf : tree.wf) :
    ∀ (pairs : List (String × Nat)) (acc : IterAcc),
      (∀ p ∈ pairs, tree.can_node_be_decremented p.1 p.2 = some true) →
      (∀ c ∈ acc.candidates, c.1.wf) →
      (∀ sd ∈ acc.memo, oracle sd.1 = some sd.2) →
      ∃ acc2, expandPairs oracle tree pairs acc = .ok acc2 ∧
        (∀ c ∈ acc2.candidates, c.1.wf) ∧
        (∀ sd ∈ acc2.memo, oracle sd.1 = some sd.2) := by
  intro pairs
  induction pairs with
  | nil =>
    intro acc _ hcand hmemo
    exact ⟨acc, rfl, hcand, hmemo⟩
  | cons pr rest ih =>
    rcases pr with ⟨nid, ci⟩
    intro acc hpairs hcand hmemo
    have hcopy : tree.copy = tree := copy_eq tree hwf.2.1
    rcases decrement_of_canDec_true hwf
      (hpairs (nid, ci) (List.mem_cons_self _ _)) with ⟨new_tree, hdec, hwf2⟩
    have hdec2 : (tree.copy).decrement_node nid ci = some new_tree := by
      rw [hcopy]
      exact hdec
    rw [expandPairs]
    simp only [hdec2]
    by_cases hmem : (dictGet acc.memo new_tree.to_talent_string).isSome
    · rw [if_pos hmem]
      exact ih acc (fun p hp => hpairs p (List.mem_cons_of_mem _ hp)) hcand hmemo
    · rw [if_neg hmem]
      cases horole : oracle new_tree.to_talent_string with
      | none =>
        exact ih _ (fun p hp => hpairs p (List.mem_cons_of_mem _ hp))
          (fun c hc => hcand c hc) (fun sd hsd => hmemo sd hsd)
      | some d =>
        refine ih _ (fun p hp => hpairs p (List.mem_cons_of_mem _ hp)) ?_ ?_
        · intro c hc
          rcases List.mem_append.mp hc with h2 | h2
          · exact hcand c h2
          · simp only [List.mem_singleton] at h2
            subst h2
            exact hwf2
        · intro sd hsd
          rcases mem_dictInsert hsd with h2 | h2
          · rw [h2]
            exact horole
          · exact hmemo sd h2

theorem processTree_C (cfg : BeamSearchConfig) (oracle : String → Option ℚ)
    (sh : BeamShuffles) (hshn : ∀ l, (sh.shuffleNodeIds l).Perm l)
    (hshd : ∀ l, (sh.shuffleDecrements l).Perm l) (acc : IterAcc)
    (tree : PlayerTalentTree) (hwf : tree.wf)
    (htree : tree.get_total_points_spent ≤ tree.get_total_points_available →
      (dictGet acc.memo tree.to_talent_string).isSome)
    (hcand : ∀ c ∈ acc.candidates, c.1.wf)
    (hmemo : ∀ sd ∈ acc.memo, oracle sd.1 = some sd.2) :
    ∃ acc2, processTree cfg oracle sh acc tree = .ok acc2 ∧
      (∀ c ∈ acc2.candidates, c.1.wf) ∧
      (∀ sd ∈ acc2.memo, oracle sd.1 = some sd.2) := by
  unfold processTree
  by_cases hvalid : tree.get_total_points_spent ≤ tree.get_total_points_available
  · rw [if_pos hvalid]
    rcases Option.isSome_iff_exists.mp (htree hvalid) with ⟨d, hd⟩
    rw [hd]
    refine ⟨_, rfl, ?_, hmemo⟩
    intro c hc
    rcases List.mem_append.mp hc with h2 | h2
    · exact hcand c h2
    · simp only [List.mem_singleton] at h2
      subst h2
      exact hwf
  · rw [if_neg hvalid]
    rcases find_nodes_spec tree sh.shuffleNodeIds sh.shuffleChoices hwf hshn
      with ⟨L, hL, hLok⟩
    rw [hL]
    refine expandPairs_C oracle tree hwf _ acc ?_ hcand hmemo
    intro p hp
    have hp2 : p ∈ L := (hshd L).mem_iff.mp (List.take_subset _ _ hp)
    exact hLok p hp2

theorem processBeam_C (cfg : BeamSearchConfig) (oracle : String → Option ℚ)
    (sh : BeamShuffles) (hshn : ∀ l, (sh.shuffleNodeIds l).Perm l)
    (hshd : ∀ l, (sh.shuffleDecrements l).Perm l) :
    ∀ (beam : List PlayerTalentTree) (acc : IterAcc),
      (∀ tree ∈ beam, tree.wf) →
      (∀ tree ∈ beam, tree.get_total_points_spent ≤
        tree.get_total_points_available →
        (dictGet acc.memo tree.to_talent_string).isSome) →
      (∀ c ∈ acc.candidates, (dictGet acc.memo c.1.to_talent_string).isSome) →
      (∀ c ∈ acc.candidates, c.1.wf) →
      (∀ sd ∈ acc.memo, oracle sd.1 = some sd.2) →
      ∃ acc2, processBeam cfg oracle sh beam acc = .ok acc2 ∧
        (∀ c ∈ acc2.candidates, c.1.wf) ∧
        (∀ sd ∈ acc2.memo, oracle sd.1 = some sd.2) ∧
        (∀ c ∈ acc2.candidates, (dictGet acc2.memo c.1.to_talent_string).isSome) := by
  intro beam
  induction beam with
  | nil =>
    intro acc _ _ hcandm hcand hmemo
    exact ⟨acc, rfl, hcand, hmemo, hcandm⟩
  | cons tree rest ih =>
    intro acc hbwf hbmemo hcandm hcand hmemo
    rcases processTree_C cfg oracle sh hshn hshd acc tree
      (hbwf tree (List.mem_cons_self _ _))
      (hbmemo tree (List.mem_cons_self _ _)) hcand hmemo with
      ⟨acc3, hstep, hcand3, hmemo3⟩
    have hmono := (processTree_A cfg oracle sh acc tree
      (hbmemo tree (List.mem_cons_self _ _)) hcandm).2 acc3 hstep
    rcases ih acc3 (fun tr ht => hbwf tr (List.mem_cons_of_mem _ ht))
      (fun tr ht hv => hmono.1 _ (hbmemo tr (List.mem_cons_of_mem _ ht) hv))
      hmono.2 hcand3 hmemo3 with ⟨acc2, hrun, hc2, hm2, hcm2⟩
    refine ⟨acc2, ?_, hc2, hm2, hcm2⟩
    rw [processBeam, hstep]
    exact hrun

/-- On a memoized, well-formed, oracle-consistent state, one iteration of
the loop raises no exception and preserves all three properties. -/
theorem beamStep_C (cfg : BeamSearchConfig) (oracle : String → Option ℚ)
    (sh : BeamShuffles) (hshn : ∀ l, (sh.shuffleNodeIds l).Perm l)
    (hshd : ∀ l, (sh.shuffleDecrements l).Perm l) (st : SearchState)
    (hmi : memoInv st) (hbwf : ∀ tree ∈ st.beam, tree.wf)
    (hmo : ∀ sd ∈ st.dps_by_talent_str, oracle sd.1 = some sd.2) :
    (∀ e st2, beamStep cfg oracle sh st ≠ .err e st2) ∧
    (∀ st2, beamStep cfg oracle sh st = .next st2 ∨
        beamStep cfg oracle sh st = .stop st2 →
      memoInv st2 ∧ (∀ tree ∈ st2.beam, tree.wf) ∧
      (∀ sd ∈ st2.dps_by_talent_str, oracle sd.1 = some sd.2)) := by
  have hok := processBeam_C cfg oracle sh hshn hshd st.beam
    ⟨st.dps_by_talent_str, [], st.best_dps, st.best_tree_so_far, false,
      st.oracle_calls⟩
    hbwf (fun t ht _ => hmi t ht) (by intro c hc; simp at hc)
    (by intro c hc; simp at hc) hmo
  rcases hok with ⟨acc2, hrun, hc2wf, hm2, hcm2⟩
  have hmono := (processBeam_A cfg oracle sh st.beam
    ⟨st.dps_by_talent_str, [], st.best_dps, st.best_tree_so_far, false,
      st.oracle_calls⟩
    (fun t ht _ => hmi t ht) (by intro c hc; simp at hc)).2 acc2 hrun
  have hnew : ∀ tree ∈ ((acc2.candidates.insertionSort
        (fun a b => b.2 ≤ a.2)).take cfg.beam_width).map Prod.fst,
      tree.wf ∧ (dictGet acc2.memo tree.to_talent_string).isSome := by
    intro tree ht
    rcases List.mem_map.mp ht with ⟨c, hc, he⟩
    have hc2 : c ∈ acc2.candidates :=
      (List.perm_insertionSort _ _).subset (List.take_subset _ _ hc)
    subst he
    exact ⟨hc2wf c hc2, hcm2 c hc2⟩
  unfold beamStep
  simp only [hrun]
  by_cases hflag : acc2.has_new_candidates = false
  · rw [if_pos hflag]
    refine ⟨fun e st2 h => (by cases h), ?_⟩
    intro st2 h
    rcases h with h | h
    · cases h
    · cases h
      exact ⟨fun t ht => hmono.1 _ (hmi t ht), hbwf, hm2⟩
  · rw [if_neg hflag]
    by_cases hemp : (((acc2.candidates.insertionSort
        (fun a b => b.2 ≤ a.2)).take cfg.beam_width).map Prod.fst).isEmpty
    · rw [if_pos hemp]
      refine ⟨fun e st2 h => (by cases h), ?_⟩
      intro st2 h
      rcases h with h | h
      · cases h
      · cases h
        exact ⟨fun t ht => (hnew t ht).2, fun t ht => (hnew t ht).1, hm2⟩
    · rw [if_neg hemp]
      refine ⟨fun e st2 h => (by cases h), ?_⟩
      intro st2 h
      rcases h with h | h
      · cases h
        exact ⟨fun t ht => (hnew t ht).2, fun t ht => (hnew t ht).1, hm2⟩
      · cases h

/-- The while loop never lets an exception escape from a memoized,
well-formed, oracle-consistent state, and its final memo table only holds
successful oracle results. -/
theorem beamLoop_C (cfg : BeamSearchConfig) (oracle : String → Option ℚ)
    (sh : BeamShuffles) (hshn : ∀ l, (sh.shuffleNodeIds l).Perm l)
    (hshd : ∀ l, (sh.shuffleDecrements l).Perm l) :
    ∀ (fuel : Nat) (st : SearchState), memoInv st →
      (∀ tree ∈ st.beam, tree.wf) →
      (∀ sd ∈ st.dps_by_talent_str, oracle sd.1 = some sd.2) →
      (∀ e st2, beamLoop cfg oracle sh fuel st ≠ .failed e st2) ∧
      (∀ st2, beamLoop cfg oracle sh fuel st = .finished st2 ∨
          beamLoop cfg oracle sh fuel st = .fuelOut st2 →
        ∀ sd ∈ st2.dps_by_talent_str, oracle sd.1 = some sd.2) := by
  intro fuel
  induction fuel with
  | zero =>
    intro st _ _ hmo
    refine ⟨fun e st2 h => (by cases h), ?_⟩
    intro st2 h
    rcases h with h | h
    · cases h
    · cases h
      exact hmo
  | succ fuel ih =>
    intro st hmi hbwf hmo
    rw [beamLoop]
    by_cases hemp : st.beam.isEmpty
    · rw [if_pos hemp]
      refine ⟨fun e st2 h => (by cases h), ?_⟩
      intro st2 h
      rcases h with h | h
      · cases h
        exact hmo
      · cases h
    · rw [if_neg hemp]
      have hstep := beamStep_C cfg oracle sh hshn hshd st hmi hbwf hmo
      cases hs : beamStep cfg oracle sh st with
      | stop st2 =>
        have h2 := hstep.2 st2 (Or.inr hs)
        refine ⟨fun e st3 h => (by cases h), ?_⟩
        intro st3 h
        rcases h with h | h
        · cases h
          exact h2.2.2
        · cases h
      | err e st2 => exact absurd hs (hstep.1 e st2)
      | next st2 =>
        have h2 := hstep.2 st2 (Or.inl hs)
        exact ih st2 h2.1 h2.2.1 h2.2.2

/-- C9: if the very first (seed) oracle evaluation fails,
`beam_search_optimal_talents` raises the fatal `RuntimeError` after that
single call; a later oracle failure merely drops the candidate silently —
the memo table and candidate pool are untouched, only the call log grows —
and on a well-formed template with a succeeding seed evaluation no
exception ever escapes the search, whose memo table moreover only ever
holds results of successful oracle calls. -/
theorem claim_C9_error_handling :
    (∀ (cfg : BeamSearchConfig) (oracle : String → Option ℚ)
        (sh : BeamShuffles) (fuel : Nat) (tmpl : TalentTree) (m : Nat)
        (blocked : List (String × Nat)),
      oracle (seedTree tmpl m blocked).to_talent_string = none →
      beam_search_optimal_talents cfg oracle sh fuel tmpl m blocked =
        .fatal [(seedTree tmpl m blocked).to_talent_string]) ∧
    (∀ (oracle : String → Option ℚ) (tree : PlayerTalentTree) (nid : String)
        (ci : Nat) (rest : List (String × Nat)) (acc : IterAcc)
        (new_tree : PlayerTalentTree),
      PlayerTalentTree.decrement_node tree.copy nid ci = some new_tree →
      (dictGet acc.memo new_tree.to_talent_string).isSome = false →
      oracle new_tree.to_talent_string = none →
      expandPairs oracle tree ((nid, ci) :: rest) acc =
        expandPairs oracle tree rest
          { acc with calls := acc.calls ++ [new_tree.to_talent_string] }) ∧
    (∀ (cfg : BeamSearchConfig) (oracle : String → Option ℚ)
        (sh : BeamShuffles) (fuel : Nat) (tmpl : TalentTree) (m : Nat)
        (blocked : List (String × Nat)) (d0 : ℚ), tmpl.wf →
      (∀ l, (sh.shuffleNodeIds l).Perm l) →
      (∀ l, (sh.shuffleDecrements l).Perm l) →
      oracle (seedTree tmpl m blocked).to_talent_string = some d0 →
      (∀ e st2, beam_search_optimal_talents cfg oracle sh fuel tmpl m blocked ≠
        .failed e st2) ∧
      (∀ st2, beam_search_optimal_talents cfg oracle sh fuel tmpl m blocked =
            .finished st2 ∨
          beam_search_optimal_talents cfg oracle sh fuel tmpl m blocked =
            .fuelOut st2 →
        ∀ sd ∈ st2.dps_by_talent_str, oracle sd.1 = some sd.2)) := by
  refine ⟨?_, ?_, ?_⟩
  · intro cfg oracle sh fuel tmpl m blocked h
    unfold beam_search_optimal_talents
    simp only [h]
  · intro oracle tree nid ci rest acc new_tree hdec hmem horacle
    rw [expandPairs]
    simp only [hdec, hmem, horacle]
    rfl
  · intro cfg oracle sh fuel tmpl m blocked d0 htmpl hshn hshd h0
    have hwf0 : (seedTree tmpl m blocked).wf := seedTree_wf tmpl m blocked htmpl
    have hloop := beamLoop_C cfg oracle sh hshn hshd fuel
      (initialState tmpl m blocked d0)
      (by
        intro tree ht
        simp only [initialState, List.mem_singleton] at ht
        subst ht
        simp [initialState, dictGet])
      (by
        intro tree ht
        simp only [initialState, List.mem_singleton] at ht
        subst ht
        exact hwf0)
      (by
        intro sd hsd
        simp only [initialState, List.mem_singleton] at hsd
        subst hsd
        exact h0)
    have hrun : beam_search_optimal_talents cfg oracle sh fuel tmpl m blocked =
        beamLoop cfg oracle sh fuel (initialState tmpl m blocked d0) := by
      unfold beam_search_optimal_talents
      simp only [h0]
    rw [hrun]
    exact hloop

/-- C9 witness: on the three-node fixture, an always-failing oracle makes
the search fatal after the single seed call; a failing oracle on a
concrete decremented candidate leaves memo and candidates untouched; and
with an always-succeeding oracle no exception escapes a concrete run. -/
theorem claim_C9_witness :
    ((fun _ => (none : Option ℚ)) (seedTree w7tmpl 1 []).to_talent_string =
        none ∧
      beam_search_optimal_talents ⟨2, 3⟩ (fun _ => none) idShuffles 5 w7tmpl 1
          [] =
        .fatal [(seedTree w7tmpl 1 []).to_talent_string]) ∧
    (PlayerTalentTree.decrement_node (seedTree w7tmpl 1 []).copy "a" 0 =
        some w9dec ∧
      (dictGet ([] : List (String × ℚ)) w9dec.to_talent_string).isSome =
        false ∧
      expandPairs (fun _ => none) (seedTree w7tmpl 1 []) [("a", 0)]
          ⟨[], [], 0, none, false, []⟩ =
        expandPairs (fun _ => none) (seedTree w7tmpl 1 []) []
          ⟨[], [], 0, none, false, [w9dec.to_talent_string]⟩) ∧
    (w7tmpl.wf ∧
      (match beam_search_optimal_talents ⟨2, 3⟩ (fun _ => some 1) idShuffles 3
          w7tmpl 1 [] with
        | .failed _ _ => False
        | _ => True)) := by
  refine ⟨⟨rfl, ?_⟩, ⟨by decide, rfl, ?_⟩, by decide, ?_⟩
  · exact claim_C9_error_handling.1 ⟨2, 3⟩ (fun _ => none) idShuffles 5 w7tmpl
      1 [] rfl
  · exact claim_C9_error_handling.2.1 (fun _ => none) (seedTree w7tmpl 1 [])
      "a" 0 [] ⟨[], [], 0, none, false, []⟩ w9dec (by decide) rfl rfl
  · have h3 := (claim_C9_error_handling.2.2 ⟨2, 3⟩ (fun _ => some 1) idShuffles
      3 w7tmpl 1 [] 1 (by decide) (fun l => List.Perm.refl l)
      (fun l => List.Perm.refl l) rfl).1
    cases hout : beam_search_optimal_talents ⟨2, 3⟩ (fun _ => some 1)
        idShuffles 3 w7tmpl 1 [] with
    | failed e st2 => exact absurd hout (h3 e st2)
    | fatal c => exact trivial
    | fuelOut st => exact trivial
    | finished st => exact trivial

/-- Logging a string that is not memoized preserves the call-log
invariant, whether the oracle fails on it (memo untouched) or succeeds
(result memoized). -/
theorem callsInv_extend (oracle : String → Option ℚ)
    (memo : List (String × ℚ)) (calls : List String) (str : String)
    (hinv : callsInv oracle memo calls)
    (hnot : (dictGet memo str).isSome = false) :
    (oracle str = none → callsInv oracle memo (calls ++ [str])) ∧
    (∀ d, oracle str = some d →
      callsInv oracle (dictInsert str d memo) (calls ++ [str])) := by
  constructor
  · intro hfail s q hs
    have hne : s ≠ str := by
      intro he
      subst he
      rw [hs] at hfail
      cases hfail
    have hcnt : (calls ++ [str]).count s = calls.count s := by
      rw [List.count_append, List.count_singleton']
      simp [(by simpa using hne.symm : str ≠ s)]
    rw [hcnt]
    exact hinv s q hs
  · intro d hd s q hs
    by_cases he : s = str
    · subst he
      have hzero : calls.count s = 0 := by
        by_contra hpos
        have h2 := (hinv s q hs).2 (Nat.pos_of_ne_zero hpos)
        rw [hnot] at h2
        cases h2
      have hcnt : (calls ++ [s]).count s = 1 := by
        rw [List.count_append, hzero]
        simp
      rw [hcnt]
      refine ⟨le_refl 1, fun _ => ?_⟩
      rw [dictGet_dictInsert_self]
      rfl
    · have hcnt : (calls ++ [str]).count s = calls.count s := by
        rw [List.count_append, List.count_singleton']
        simp [(by simpa using (Ne.symm he) : str ≠ s)]
      rw [hcnt]
      refine ⟨(hinv s q hs).1, fun hpos => ?_⟩
      exact dictGet_isSome_dictInsert str d ((hinv s q hs).2 hpos)

/-- `expandPairs` preserves the call-log invariant, whatever the outcome. -/
theorem expandPairs_D (oracle : String → Option ℚ) (tree : PlayerTalentTree) :
    ∀ (pairs : List (String × Nat)) (acc : IterAcc),
      callsInv oracle acc.memo acc.calls →
      ∀ acc2, (expandPairs oracle tree pairs acc = .ok acc2 ∨
          ∃ e, expandPairs oracle tree pairs acc = .err e acc2) →
        callsInv oracle acc2.memo acc2.calls := by
  intro pairs
  induction pairs with
  | nil =>
    intro acc hinv acc2 h
    rcases h with h | ⟨e, h⟩
    · cases h
      exact hinv
    · cases h
  | cons pr rest ih =>
    rcases pr with ⟨nid, ci⟩
    intro acc hinv acc2 h
    rw [expandPairs] at h
    cases hdec : (tree.copy).decrement_node nid ci with
    | none =>
      simp only [hdec] at h
      rcases h with h | ⟨e, h⟩
      · cases h
      · cases h
        exact hinv
    | some new_tree =>
      simp only [hdec] at h
      by_cases hmem : (dictGet acc.memo new_tree.to_talent_string).isSome
      · rw [if_pos hmem] at h
        exact ih acc hinv acc2 h
      · rw [if_neg hmem] at h
        have hext := callsInv_extend oracle acc.memo acc.calls
          new_tree.to_talent_string hinv (by simpa using hmem)
        cases horacle : oracle new_tree.to_talent_string with
        | none =>
          simp only [horacle] at h
          exact ih { acc with
            calls := acc.calls ++ [new_tree.to_talent_string] }
            (hext.1 horacle) acc2 h
        | some d =>
          simp only [horacle] at h
          exact ih (IterAcc.mk
            (dictInsert new_tree.to_talent_string d acc.memo)
            (acc.candidates ++ [(new_tree, d)]) _ _ true
            (acc.calls ++ [new_tree.to_talent_string]))
            (hext.2 d horacle) acc2 h

/-- `processTree` preserves the call-log invariant, whatever the outcome. -/
theorem processTree_D (cfg : BeamSearchConfig) (oracle : String → Option ℚ)
    (sh : BeamShuffles) (acc : IterAcc) (tree : PlayerTalentTree)
    (hinv : callsInv oracle acc.memo acc.calls) :
    ∀ acc2, (processTree cfg oracle sh acc tree = .ok acc2 ∨
        ∃ e, processTree cfg oracle sh acc tree = .err e acc2) →
      callsInv oracle acc2.memo acc2.calls := by
  intro acc2 h
  unfold processTree at h
  by_cases hvalid : tree.get_total_points_spent ≤ tree.get_total_points_available
  · rw [if_pos hvalid] at h
    cases hget : dictGet acc.memo tree.to_talent_string with
    | none =>
      simp only [hget] at h
      rcases h with h | ⟨e, h⟩
      · cases h
      · cases h
        exact hinv
    | some d =>
      simp only [hget] at h
      rcases h with h | ⟨e, h⟩
      · cases h
        exact hinv
      · cases h
  · rw [if_neg hvalid] at h
    cases hfind : tree.find_nodes_to_decrement sh.shuffleNodeIds
        sh.shuffleChoices with
    | none =>
      simp only [hfind] at h
      rcases h with h | ⟨e, h⟩
      · cases h
      · cases h
        exact hinv
    | some pairs =>
      simp only [hfind] at h
      exact expandPairs_D oracle tree _ acc hinv acc2 h

/-- `processBeam` preserves the call-log invariant, whatever the outcome. -/
theorem processBeam_D (cfg : BeamSearchConfig) (oracle : String → Option ℚ)
    (sh : BeamShuffles) :
    ∀ (beam : List PlayerTalentTree) (acc : IterAcc),
      callsInv oracle acc.memo acc.calls →
      ∀ acc2, (processBeam cfg oracle sh beam acc = .ok acc2 ∨
          ∃ e, processBeam cfg oracle sh beam acc = .err e acc2) →
        callsInv oracle acc2.memo acc2.calls := by
  intro beam
  induction beam with
  | nil =>
    intro acc hinv acc2 h
    rcases h with h | ⟨e, h⟩
    · cases h
      exact hinv
    · cases h
  | cons tree rest ih =>
    intro acc hinv acc2 h
    rw [processBeam] at h
    cases hstep : processTree cfg oracle sh acc tree with
    | err e acc3 =>
      simp only [hstep] at h
      rcases h with h | ⟨e2, h⟩
      · cases h
      · cases h
        exact processTree_D cfg oracle sh acc tree hinv acc2 (Or.inr ⟨e, hstep⟩)
    | ok acc3 =>
      simp only [hstep] at h
      exact ih acc3
        (processTree_D cfg oracle sh acc tree hinv acc3 (Or.inl hstep)) acc2 h

/-- One loop iteration preserves the call-log invariant at the state
level, whatever the outcome. -/
theorem beamStep_D (cfg : BeamSearchConfig) (oracle : String → Option ℚ)
    (sh : BeamShuffles) (st : SearchState)
    (hinv : callsInv oracle st.dps_by_talent_str st.oracle_calls) :
    ∀ st2, (beamStep cfg oracle sh st = .stop st2 ∨
        beamStep cfg oracle sh st = .next st2 ∨
        ∃ e, beamStep cfg oracle sh st = .err e st2) →
      callsInv oracle st2.dps_by_talent_str st2.oracle_calls := by
  intro st2 h
  unfold beamStep at h
  cases hrun : processBeam cfg oracle sh st.beam
      ⟨st.dps_by_talent_str, [], st.best_dps, st.best_tree_so_far, false,
        st.oracle_calls⟩ with
  | err e acc =>
    have hacc := processBeam_D cfg oracle sh st.beam
      ⟨st.dps_by_talent_str, [], st.best_dps, st.best_tree_so_far, false,
        st.oracle_calls⟩ hinv acc (Or.inr ⟨e, hrun⟩)
    simp only [hrun] at h
    rcases h with h | h | ⟨e2, h⟩
    · cases h
    · cases h
    · cases h
      exact hacc
  | ok acc =>
    have hacc := processBeam_D cfg oracle sh st.beam
      ⟨st.dps_by_talent_str, [], st.best_dps, st.best_tree_so_far, false,
        st.oracle_calls⟩ hinv acc (Or.inl hrun)
    simp only [hrun] at h
    by_cases hflag : acc.has_new_candidates = false
    · rw [if_pos hflag] at h
      rcases h with h | h | ⟨e2, h⟩
      · cases h
        exact hacc
      · cases h
      · cases h
    · rw [if_neg hflag] at h
      by_cases hemp : (((acc.candidates.insertionSort
          (fun a b => b.2 ≤ a.2)).take cfg.beam_width).map Prod.fst).isEmpty
      · rw [if_pos hemp] at h
        rcases h with h | h | ⟨e2, h⟩
        · cases h
          exact hacc
        · cases h
        · cases h
      · rw [if_neg hemp] at h
        rcases h with h | h | ⟨e2, h⟩
        · cases h
        · cases h
          exact hacc
        · cases h

/-- The while loop keeps every scorable string at most once in the call
log. -/
theorem beamLoop_D (cfg : BeamSearchConfig) (oracle : String → Option ℚ)
    (sh : BeamShuffles) :
    ∀ (fuel : Nat) (st : SearchState),
      callsInv oracle st.dps_by_talent_str st.oracle_calls →
      ∀ s q, oracle s = some q →
        (callsOf (beamLoop cfg oracle sh fuel st)).count s ≤ 1 := by
  intro fuel
  induction fuel with
  | zero =>
    intro st hinv s q hs
    exact (hinv s q hs).1
  | succ fuel ih =>
    intro st hinv s q hs
    rw [beamLoop]
    by_cases hemp : st.beam.isEmpty
    · rw [if_pos hemp]
      exact (hinv s q hs).1
    · rw [if_neg hemp]
      cases hstep : beamStep cfg oracle sh st with
      | stop st2 =>
        exact ((beamStep_D cfg oracle sh st hinv st2 (Or.inl hstep)) s q hs).1
      | err e st2 =>
        exact ((beamStep_D cfg oracle sh st hinv st2
          (Or.inr (Or.inr ⟨e, hstep⟩))) s q hs).1
      | next st2 =>
        exact ih st2 (beamStep_D cfg oracle sh st hinv st2
          (Or.inr (Or.inl hstep))) s q hs

/-- C7 is too strong as stated: in a concrete run (three one-point nodes,
budget 1, identity shuffles), the string `c:1` — on which the oracle
fails — is submitted to the oracle twice, once from each of two beam
members that both derive it. -/
theorem claim_C7_counterexample :
    (callsOf (beam_search_optimal_talents ⟨2, 3⟩ w7oracle idShuffles 5 w7tmpl
      1 [])).count "c:1" = 2 ∧
    w7oracle "c:1" = none := by
  exact ⟨by decide, rfl⟩

/-- C7 (amended): a derived candidate whose canonical string is already in
the memo triggers no oracle call, and consequently every canonical string
that the oracle scores successfully is submitted at most once per run;
only strings on which the oracle fails (which are never memoized) can be
submitted more than once. -/
theorem claim_C7_amended :
    (∀ (oracle : String → Option ℚ) (tree : PlayerTalentTree) (nid : String)
        (ci : Nat) (rest : List (String × Nat)) (acc : IterAcc)
        (new_tree : PlayerTalentTree),
      PlayerTalentTree.decrement_node tree.copy nid ci = some new_tree →
      (dictGet acc.memo new_tree.to_talent_string).isSome = true →
      expandPairs oracle tree ((nid, ci) :: rest) acc =
        expandPairs oracle tree rest acc) ∧
    (∀ (cfg : BeamSearchConfig) (oracle : String → Option ℚ)
        (sh : BeamShuffles) (fuel : Nat) (tmpl : TalentTree) (m : Nat)
        (blocked : List (String × Nat)) (s : String) (q : ℚ),
      oracle s = some q →
      (callsOf (beam_search_optimal_talents cfg oracle sh fuel tmpl m
        blocked)).count s ≤ 1) := by
  constructor
  · intro oracle tree nid ci rest acc new_tree hdec hmem
    rw [expandPairs]
    simp only [hdec, hmem, if_true]
  · intro cfg oracle sh fuel tmpl m blocked s q hs
    unfold beam_search_optimal_talents
    cases h0 : oracle (seedTree tmpl m blocked).to_talent_string with
    | none =>
      simp only [h0]
      show ([(seedTree tmpl m blocked).to_talent_string].count s) ≤ 1
      rw [List.count_singleton']
      split <;> omega
    | some d0 =>
      simp only [h0]
      refine beamLoop_D cfg oracle sh fuel (initialState tmpl m blocked d0)
        ?_ s q hs
      intro s2 q2 hs2
      constructor
      · show ([(seedTree tmpl m blocked).to_talent_string].count s2) ≤ 1
        rw [List.count_singleton']
        split <;> omega
      · intro hpos
        have hmem : s2 ∈ [(seedTree tmpl m blocked).to_talent_string] :=
          List.count_pos_iff.mp hpos
        rw [List.mem_singleton] at hmem
        subst hmem
        show (dictGet [((seedTree tmpl m blocked).to_talent_string, d0)]
          (seedTree tmpl m blocked).to_talent_string).isSome
        simp [dictGet]

/-- C7 witness: a concrete memoized candidate is skipped without an oracle
call, and in the concrete counterexample run a string the oracle scores
(`a:1`) indeed appears at most once in the call log. -/
theorem claim_C7_witness :
    (PlayerTalentTree.decrement_node (seedTree w7tmpl 1 []).copy "a" 0 =
        some w9dec ∧
      (dictGet [(w9dec.to_talent_string, (5 : ℚ))]
        w9dec.to_talent_string).isSome = true ∧
      expandPairs w7oracle (seedTree w7tmpl 1 []) [("a", 0)]
          ⟨[(w9dec.to_talent_string, 5)], [], 0, none, false, []⟩ =
        expandPairs w7oracle (seedTree w7tmpl 1 []) []
          ⟨[(w9dec.to_talent_string, 5)], [], 0, none, false, []⟩) ∧
    (w7oracle "a:1" = some 2 ∧
      (callsOf (beam_search_optimal_talents ⟨2, 3⟩ w7oracle idShuffles 5
        w7tmpl 1 [])).count "a:1" ≤ 1) := by
  refine ⟨⟨by decide, by decide, ?_⟩, by decide, ?_⟩
  · exact claim_C7_amended.1 w7oracle (seedTree w7tmpl 1 []) "a" 0 []
      ⟨[(w9dec.to_talent_string, 5)], [], 0, none, false, []⟩ w9dec
      (by decide) (by decide)
  · exact claim_C7_amended.2 ⟨2, 3⟩ w7oracle idShuffles 5 w7tmpl 1 [] "a:1" 2
      (by decide)
